import Mathlib

/-!
Verification of the dgen-one lexical block parser, block-linking model,
directive interpreter and code-tree root finding.

The development shallow-embeds the JavaScript sources:
  * src/src/codeblock.js   (second, current variant: PATTERNS, CodeBlock.getBlockMeta,
    the per-kind meta functions, CodeBlock.getBlockLength, ContentBlock.loadCode,
    ContentBlock.sliceContent, CommentBlock/FunctionBlock/ClassBlock field extraction,
    CodeBlock.addAlias, CodeBlock.setExportedName)
  * src/src/directive.js   (the alias/assign/export/pattern handlers and _logError)
  * src/src/directive_engine.js (DirectiveEngine.runContentDirectives)
  * src/src/codetree.js    (CodeTree.findRoots)
  * the CodeUnit class     (getPrev/getNext/getAllPrev/getLast worklist walks)

Strings are modelled as `List Char`.  JavaScript regular expressions are embedded
as deterministic scanners: for every pattern of the source's PATTERNS table the
scanner below is extensionally equal to the JS regex test because each character
class involved is disjoint from the literal that follows it, so the regexes never
need backtracking except where explicitly analysed in the comments.

Loops are embedded as fuel-indexed structural recursions (the JS `while` loops);
sufficiency of the chosen fuel is proved, never assumed.
-/

namespace DGen

/-- Newline character. -/
def nl : Char := '\n'

/-- Left brace character (written by code to satisfy source scanners). -/
def lbrace : Char := Char.ofNat 123

/-- Right brace character. -/
def rbrace : Char := Char.ofNat 125

/-- Single-quote character. -/
def squote : Char := Char.ofNat 39

/-- Character class of the regex class `[ \t\n]`. -/
def wsChar (c : Char) : Bool := c == ' ' || c == '\t' || c == '\n'

/-- Character class of the regex class `[ \t]` (indentation characters). -/
def indentChar (c : Char) : Bool := c == ' ' || c == '\t'

/-- Character class `[a-zA-Z]`. -/
def alphaChar (c : Char) : Bool :=
  ('a' ≤ c && c ≤ 'z') || ('A' ≤ c && c ≤ 'Z')

/-- Character class `[0-9]`. -/
def digitChar (c : Char) : Bool := '0' ≤ c && c ≤ '9'

/-- Character class `[1-9]` (the REQUIRE_MODULE identifier class omits `0`). -/
def digit19Char (c : Char) : Bool := '1' ≤ c && c ≤ '9'

/-- Character class `[a-zA-Z0-9_]`. -/
def identChar (c : Char) : Bool := alphaChar c || digitChar c || c == '_'

/-- Character class `[a-zA-Z1-9_]` used by PATTERNS.REQUIRE_MODULE. -/
def ident19Char (c : Char) : Bool := alphaChar c || digit19Char c || c == '_'

/-- Character class `[a-zA-Z0-9]` used for names in PATTERNS.FUN_DECLARATION. -/
def alnumChar (c : Char) : Bool := alphaChar c || digitChar c

/-- Character class `[a-zA-Z0-9_.]` used by PATTERNS.ASSIGNMENT. -/
def identDotChar (c : Char) : Bool := identChar c || c == '.'

/-- Quote class `['"]`. -/
def quoteChar (c : Char) : Bool := c == squote || c == '"'

/-- Skip the maximal run matched by `[ \t\n]*`. -/
def skipWS (s : List Char) : List Char := s.dropWhile wsChar

/-- Index of the first occurrence of a character (JS `String.indexOf`, as an Option). -/
def firstIdxOf (c : Char) : List Char → Option Nat
  | [] => none
  | a :: rest =>
      if a == c then some 0
      else (firstIdxOf c rest).map (· + 1)

/-- Index of the last occurrence of a character within a list. -/
def lastIdxOf (c : Char) : List Char → Option Nat
  | [] => none
  | a :: rest =>
      match lastIdxOf c rest with
      | some j => some (j + 1)
      | none => if a == c then some 0 else none

/-- Index of the first occurrence of a substring (JS `String.indexOf` with a string). -/
def idxOfSub (pat : List Char) : List Char → Option Nat
  | [] => if pat = [] then some 0 else none
  | a :: rest =>
      if pat.isPrefixOf (a :: rest) then some 0
      else (idxOfSub pat rest).map (· + 1)

/-- Strip a literal prefix, returning the remainder on success. -/
def stripPre (pat s : List Char) : Option (List Char) :=
  if pat.isPrefixOf s then some (s.drop pat.length) else none

/-- Try a list of literal alternatives in order (regex alternation over literals
whose first characters are pairwise distinct), returning the remainder after
the first alternative that is a prefix. -/
def afterKw (kws : List (List Char)) (s : List Char) : Option (List Char) :=
  match kws with
  | [] => none
  | k :: rest =>
      match stripPre k s with
      | some r => some r
      | none => afterKw rest s

/-- JS `String.prototype.split("\n")`: split into rows at newlines; a trailing
newline yields a trailing empty row. -/
def splitNL : List Char → List (List Char)
  | [] => [[]]
  | c :: rest =>
      if c == nl then [] :: splitNL rest
      else
        match splitNL rest with
        | [] => [[c]]
        | r :: rs => (c :: r) :: rs

/-- Join rows with newlines (inverse of splitNL). -/
def joinNL : List (List Char) → List Char
  | [] => []
  | [r] => r
  | r :: rs => r ++ nl :: joinNL rs

/-- JS `s.slice(0, k)` where `k` may be negative (counts from the end) and is
clamped to the string length. -/
def jsSliceTo (s : List Char) (k : Int) : List Char :=
  if k < 0 then s.take ((s.length : Int) + k).toNat else s.take k.toNat

/-- JS `s.slice(k)` where `k` may be negative. -/
def jsSliceFrom (s : List Char) (k : Int) : List Char :=
  if k < 0 then s.drop ((s.length : Int) + k).toNat else s.drop k.toNat

/-!  ## The pattern table (codeblock.js PATTERNS, second variant, lines 938-947)

Each JS regex test `content.match(PATTERNS.X) !== null` is embedded as a Bool
scanner.  Leading `[ \t\n]*` runs are taken maximally: in every pattern the
character that must follow the run is not itself in `[ \t\n]`, so the greedy
run is the only viable one and no backtracking is possible. -/

/-- PATTERNS.COMMENT_LINE = `^[ \t\n]*\/{2}.*\n` : whitespace run, two slashes,
then (since `.` cannot match a newline but `.*` is unbounded) any text up to a
newline, which must exist. -/
def matchCommentLine (s : List Char) : Bool :=
  match skipWS s with
  | '/' :: '/' :: rest => rest.contains nl
  | _ => false

/-- PATTERNS.COMMENT_BLOCK = `^[ \t\n]*\/\*.*\n`. -/
def matchCommentBlock (s : List Char) : Bool :=
  match skipWS s with
  | '/' :: '*' :: rest => rest.contains nl
  | _ => false

/-- Scanner for the suffix `.+['"]\)` of PATTERNS.REQUIRE_MODULE after the
opening quote: there must exist a position with at least one non-newline
character consumed before it, holding a quote immediately followed by `)`.
The flag records whether at least one `.` character has been consumed. -/
def reqScan : Bool → List Char → Bool
  | consumed, c :: rest =>
      (consumed && quoteChar c && rest.head? == some ')') ||
      (c != nl && reqScan true rest)
  | _, [] => false

/-- PATTERNS.REQUIRE_MODULE =
`^[ \t\n]*(var|const)[ \t\n]+[a-zA-Z1-9_]+[ \t\n]*=[ \t\n]*require\(['"].+['"]\);?`.
The trailing `;?` cannot affect whether a match exists. -/
def matchRequire (s : List Char) : Bool :=
  match afterKw ["var".toList, "const".toList] (skipWS s) with
  | none => false
  | some r1 =>
      match r1 with
      | [] => false
      | c :: _ =>
          wsChar c &&
            (let r2 := skipWS r1
             let idlen := (r2.takeWhile ident19Char).length
             decide (0 < idlen) &&
               (match skipWS (r2.drop idlen) with
                | '=' :: r4 =>
                    (match stripPre "require(".toList (skipWS r4) with
                     | some (q :: r6) => quoteChar q && reqScan false r6
                     | _ => false)
                | _ => false))

/-- Common suffix `[ \t\n]*\([^()]*\)[ \t\n]*{` of FUN_DECLARATION and
METHOD_DECLARATION: after `(`, the class `[^()]*` runs to the first parenthesis
character, which must be `)`. -/
def funCommon (s : List Char) : Bool :=
  match skipWS s with
  | '(' :: rest =>
      (match rest.dropWhile (fun c => c != '(' && c != ')') with
       | ')' :: r2 => (skipWS r2).head? == some lbrace
       | _ => false)
  | _ => false

/-- First branch of FUN_DECLARATION:
`(let|var|const)[ \t\n]+[a-zA-Z0-9_]+[ \t\n]*=[ \t\n]*function` then the common
suffix. -/
def matchFunA (s : List Char) : Bool :=
  match afterKw ["let".toList, "var".toList, "const".toList] s with
  | none => false
  | some r1 =>
      match r1 with
      | [] => false
      | c :: _ =>
          wsChar c &&
            (let r2 := skipWS r1
             let idlen := (r2.takeWhile identChar).length
             decide (0 < idlen) &&
               (match skipWS (r2.drop idlen) with
                | '=' :: r4 =>
                    (match stripPre "function".toList (skipWS r4) with
                     | some r5 => funCommon r5
                     | none => false)
                | _ => false))

/-- Second branch of FUN_DECLARATION: `function[ \t\n]+[a-zA-Z0-9]+` then the
common suffix. -/
def matchFunB (s : List Char) : Bool :=
  match stripPre "function".toList s with
  | none => false
  | some r1 =>
      match r1 with
      | [] => false
      | c :: _ =>
          wsChar c &&
            (let r2 := skipWS r1
             let idlen := (r2.takeWhile alnumChar).length
             decide (0 < idlen) && funCommon (r2.drop idlen))

/-- PATTERNS.FUN_DECLARATION.  The two alternation branches begin with distinct
keywords (let/var/const versus function), so at most one can apply. -/
def matchFun (s : List Char) : Bool :=
  matchFunA (skipWS s) || matchFunB (skipWS s)

/-- Length of the match of PATTERNS.VAR_DECLARATION =
`^[ \t\n]*(const|var|let)[ \t\n]+[a-zA-Z0-9_]+[ \t\n]*=[ \t\n]*.*` (JS
`match[0].length`), `none` when the pattern does not match.  The greedy
`[ \t\n]*` after `=` may cross newlines; the final `.*` then runs to the next
newline or the end. -/
def varMatchLen (s : List Char) : Option Nat :=
  match afterKw ["const".toList, "var".toList, "let".toList] (skipWS s) with
  | none => none
  | some r1 =>
      match r1 with
      | [] => none
      | c :: _ =>
          if wsChar c then
            let r2 := skipWS r1
            let idlen := (r2.takeWhile identChar).length
            if 0 < idlen then
              match skipWS (r2.drop idlen) with
              | '=' :: r4 =>
                  let rest := (skipWS r4).dropWhile (fun ch => ch != nl)
                  some (s.length - rest.length)
              | _ => none
            else none
          else none

/-- Boolean test of PATTERNS.VAR_DECLARATION. -/
def matchVar (s : List Char) : Bool := (varMatchLen s).isSome

/-- PATTERNS.CLASS_DECLARATION =
`^[ \t\n]*class[ \t\n]+[a-zA-Z0-9_]+[ \t\n]*( extends[ \t\n]+[a-zA-Z0-9_]+[ \t\n]*)?{`.
After the class name the engine either reaches `{` through whitespace, or
backtracks the whitespace run so that a space immediately precedes `extends`
(hence the run must be nonempty and end in a plain space). -/
def matchClass (s : List Char) : Bool :=
  match stripPre "class".toList (skipWS s) with
  | none => false
  | some r1 =>
      match r1 with
      | [] => false
      | c :: _ =>
          wsChar c &&
            (let r2 := skipWS r1
             let idlen := (r2.takeWhile identChar).length
             decide (0 < idlen) &&
               (let r3 := r2.drop idlen
                let w := r3.takeWhile wsChar
                let r4 := r3.drop w.length
                (r4.head? == some lbrace) ||
                  (!w.isEmpty && w.getLast? == some ' ' &&
                    (match stripPre "extends".toList r4 with
                     | some (d :: r5rest) =>
                         wsChar d &&
                           (let r6 := skipWS (d :: r5rest)
                            let idlen2 := (r6.takeWhile identChar).length
                            decide (0 < idlen2) &&
                              ((skipWS (r6.drop idlen2)).head? == some lbrace))
                     | _ => false))))

/-- Length of the match of PATTERNS.ASSIGNMENT =
`^[ \t\n]*[a-zA-Z0-9_.]+[ \t\n]*=[ \t\n]*.*;` (JS `match[0].length`), `none`
when there is no match.  The greedy `.*;` selects the last `;` on the line
reached after the greedy whitespace run that follows `=`; starting the `.*`
earlier inside the whitespace run can never reach a different line, so this is
the unique candidate. -/
def assignMatchLen (s : List Char) : Option Nat :=
  let r0 := skipWS s
  let idlen := (r0.takeWhile identDotChar).length
  if 0 < idlen then
    match skipWS (r0.drop idlen) with
    | '=' :: r2 =>
        let r3 := skipWS r2
        let line := r3.takeWhile (fun ch => ch != nl)
        match lastIdxOf ';' line with
        | some j => some (s.length - r3.length + j + 1)
        | none => none
    | _ => none
  else none

/-- Boolean test of PATTERNS.ASSIGNMENT. -/
def matchAssign (s : List Char) : Bool := (assignMatchLen s).isSome

/-- PATTERNS.METHOD_DECLARATION = `^[ \t\n]*[a-zA-Z0-9_]+[ \t\n]*\([^()]*\)[ \t\n]*{`. -/
def matchMethod (s : List Char) : Bool :=
  let r0 := skipWS s
  let idlen := (r0.takeWhile identChar).length
  decide (0 < idlen) && funCommon (r0.drop idlen)

/-!  ## Block metadata (codeblock.js lines 1375-1495)

JS lengths can be negative (`indexOf` returning -1), so meta lengths are `Int`.
-/

/-- Result of the block classifier: a kind tag and the consumed length. -/
structure Meta where
  type : String
  length : Int
deriving Repr, DecidableEq

/-- Depth update of one character in CodeBlock.getBlockLength's scan. -/
def braceStep (c : Char) (depth : Int) : Int :=
  if c == lbrace then depth + 1 else if c == rbrace then depth - 1 else depth

/-- CodeBlock.getBlockLength (lines 1375-1390): brace-depth count from the first
left brace; the scan stops after the character that returns the depth to zero,
or at the end of the string; trailing semicolons are then consumed.  When there
is no left brace the JS loop exits immediately at position 0 (reading index -1
once, harmlessly) and only leading semicolons are counted. -/
def braceLoop : List Char → Int → Nat → Nat
  | [], _, pos => pos
  | c :: rest, depth, pos =>
      if braceStep c depth = 0 then pos + 1 else braceLoop rest (braceStep c depth) (pos + 1)

/-- Count the leading semicolons of a string. -/
def countSemis (s : List Char) : Nat := (s.takeWhile (· == ';')).length

/-- CodeBlock.getBlockLength. -/
def getBlockLength (s : List Char) : Int :=
  match firstIdxOf lbrace s with
  | none => (countSemis s : Int)
  | some i =>
      let stop := braceLoop (s.drop i) 0 i
      ((stop + countSemis (s.drop stop) : Nat) : Int)

/-- One run of CodeBlock.getCommentLineMeta's while loop (lines 1397-1401):
while the remainder still matches COMMENT_LINE, consume up to and including the
next newline.  Each iteration consumes at least one character, so fuel equal to
the string length suffices. -/
def commentRunLen : Nat → List Char → Nat
  | 0, _ => 0
  | fuel + 1, s =>
      if matchCommentLine s then
        match firstIdxOf nl s with
        | some i => (i + 1) + commentRunLen fuel (s.drop (i + 1))
        | none => 0
      else 0

/-- CodeBlock.getCommentLineMeta (lines 1392-1404): total length of the
comment-line run minus one (the final newline is left in the input). -/
def getCommentLineMeta (s : List Char) : Meta :=
  ⟨"commentLine", (commentRunLen s.length s : Int) - 1⟩

/-- CodeBlock.getCommentBlockMeta (lines 1406-1412): `indexOf("*\/") + 2`. -/
def getCommentBlockMeta (s : List Char) : Meta :=
  ⟨"commentBlock", (match idxOfSub ['*', '/'] s with
    | some i => (i : Int)
    | none => -1) + 2⟩

/-- CodeBlock.getRequireModuleMeta (lines 1414-1420): up to the next newline. -/
def getRequireModuleMeta (s : List Char) : Meta :=
  ⟨"requireModule", match firstIdxOf nl s with
    | some i => (i : Int)
    | none => -1⟩

/-- CodeBlock.getFunDeclarationMeta (lines 1422-1428). -/
def getFunDeclarationMeta (s : List Char) : Meta :=
  ⟨"funDeclaration", getBlockLength s⟩

/-- CodeBlock.getVarDeclarationMeta (lines 1430-1437): the VAR_DECLARATION
match length.  The function is only invoked after the pattern matched; the
fallback 0 is unreachable from getBlockMeta. -/
def getVarDeclarationMeta (s : List Char) : Meta :=
  ⟨"varDeclaration", ((varMatchLen s).getD 0 : Int)⟩

/-- CodeBlock.getClassDeclarationMeta (lines 1439-1445). -/
def getClassDeclarationMeta (s : List Char) : Meta :=
  ⟨"classDeclaration", getBlockLength s⟩

/-- CodeBlock.getAssignmentMeta (lines 1447-1454); only invoked after the
ASSIGNMENT pattern matched. -/
def getAssignmentMeta (s : List Char) : Meta :=
  ⟨"assignment", ((assignMatchLen s).getD 0 : Int)⟩

/-- CodeBlock.getMethodDeclarationMeta (lines 1456-1462). -/
def getMethodDeclarationMeta (s : List Char) : Meta :=
  ⟨"methodDeclaration", getBlockLength s⟩

/-- CodeBlock.getUnknownBlockMeta (lines 1464-1472): consume to the next
newline, or the whole remainder when there is none. -/
def getUnknownBlockMeta (s : List Char) : Meta :=
  ⟨"unknown", match firstIdxOf nl s with
    | some i => (i : Int)
    | none => (s.length : Int)⟩

/-- CodeBlock.getBlockMeta (lines 1474-1495): the quick-fix for minified files
(no newline, or first newline beyond index 1000) short-circuits to the unknown
meta; otherwise the patterns are tried in the fixed precedence order. -/
def getBlockMeta (s : List Char) : Meta :=
  match firstIdxOf nl s with
  | none => getUnknownBlockMeta s
  | some i =>
      if 1000 < i then getUnknownBlockMeta s
      else if matchCommentLine s then getCommentLineMeta s
      else if matchCommentBlock s then getCommentBlockMeta s
      else if matchRequire s then getRequireModuleMeta s
      else if matchFun s then getFunDeclarationMeta s
      else if matchVar s then getVarDeclarationMeta s
      else if matchClass s then getClassDeclarationMeta s
      else if matchAssign s then getAssignmentMeta s
      else if matchMethod s then getMethodDeclarationMeta s
      else getUnknownBlockMeta s

/-- The classifier as the specification describes it: the patterns tried in the
fixed precedence order with the unknown fallback, and no minified-input
quick-fix.  This definition follows the specification's words and is compared
against getBlockMeta, which follows the source. -/
def specOrderMeta (s : List Char) : Meta :=
  if matchCommentLine s then getCommentLineMeta s
  else if matchCommentBlock s then getCommentBlockMeta s
  else if matchRequire s then getRequireModuleMeta s
  else if matchFun s then getFunDeclarationMeta s
  else if matchVar s then getVarDeclarationMeta s
  else if matchClass s then getClassDeclarationMeta s
  else if matchAssign s then getAssignmentMeta s
  else if matchMethod s then getMethodDeclarationMeta s
  else getUnknownBlockMeta s

/-!  ## The content parser (ContentBlock.loadCode, lines 2271-2336) -/

/-- One parsed block as produced by the loadCode loop: the classified kind, the
raw consumed text, the blank-row counts on both sides, whether the single
leftover newline after the block was consumed, and the starting row. -/
structure RawBlock where
  btype : String
  content : List Char
  rowsBefore : Nat
  rowsAfter : Nat
  nlConsumed : Bool
  startingRow : Nat
deriving Repr, DecidableEq

/-- Placeholder block used for out-of-range list reads. -/
def defaultRaw : RawBlock := ⟨"", [], 0, 0, false, 0⟩

instance : Inhabited RawBlock := ⟨defaultRaw⟩

/-- Number of rows of a block content (JS `content.split("\n").length`). -/
def rowCountOf (s : List Char) : Nat := s.count nl + 1

/-- The body of loadCode's while loop (lines 2288-2335), as a fuel-indexed
recursion.  `emptyRows` is the number of blank rows counted before the current
cursor (the rowsBefore of the next block).  Each iteration consumes at least
one character when the cursor does not start with a newline, so fuel equal to
the cursor length suffices (proved below, not assumed). -/
def parseLoop : Nat → List Char → Nat → Nat → List RawBlock
  | 0, _, _, _ => []
  | fuel + 1, content, row, emptyRows =>
      if content.isEmpty then []
      else
        let meta := getBlockMeta content
        let bc := jsSliceTo content meta.length
        let rest := content.drop bc.length
        let nlc := rest.head? == some nl
        let rest1 := if nlc then rest.tail else rest
        let e2 := (rest1.takeWhile (· == nl)).length
        let rest2 := rest1.drop e2
        ⟨meta.type, bc, emptyRows, e2, nlc, row⟩ ::
          parseLoop fuel rest2 (row + rowCountOf bc + e2) e2

/-- ContentBlock.loadCode: strip and count the leading blank rows, then run the
block loop.  Returns the list of produced blocks (each recording the metadata
the loop stores on it). -/
def loadCode (content : List Char) (row : Nat) : List RawBlock :=
  let e0 := (content.takeWhile (· == nl)).length
  parseLoop content.length (content.drop e0) (row + e0) e0

/-- Reassembly of the cursor text covered by the loop: each block contributes
its raw content, the single newline consumed after it (when one was), and one
newline per blank row counted after it. -/
def blocksRebuild (bs : List RawBlock) : List Char :=
  bs.foldr
    (fun b acc =>
      b.content ++ (if b.nlConsumed then [nl] else []) ++ List.replicate b.rowsAfter nl ++ acc)
    []

/-- Reassembly of a whole input from its parsed blocks: the first block's
rowsBefore gives the stripped leading blank rows. -/
def rebuildContent (bs : List RawBlock) : List Char :=
  match bs with
  | [] => []
  | b :: _ => List.replicate b.rowsBefore nl ++ blocksRebuild bs

/-!  ## Elementary facts about the scanners -/

theorem firstIdxOf_lt {c : Char} : ∀ {s : List Char} {i : Nat},
    firstIdxOf c s = some i → i < s.length := by
  intro s
  induction s with
  | nil => intro i h; simp [firstIdxOf] at h
  | cons a rest ih =>
      intro i h
      unfold firstIdxOf at h
      by_cases ha : a == c
      · rw [if_pos ha] at h
        simp only [Option.some.injEq] at h
        subst h
        simp
      · rw [if_neg ha] at h
        cases hf : firstIdxOf c rest with
        | none => rw [hf] at h; simp at h
        | some j =>
            rw [hf] at h
            simp only [Option.map_some', Option.some.injEq] at h
            subst h
            have := ih hf
            simp only [List.length_cons]
            omega

theorem firstIdxOf_pos {c : Char} {s : List Char} {i : Nat}
    (hh : s.head? ≠ some c) (h : firstIdxOf c s = some i) : 1 ≤ i := by
  cases s with
  | nil => simp [firstIdxOf] at h
  | cons a rest =>
      unfold firstIdxOf at h
      by_cases ha : a == c
      · exact absurd (by simp [eq_of_beq ha]) hh
      · rw [if_neg ha] at h
        cases hf : firstIdxOf c rest with
        | none => rw [hf] at h; simp at h
        | some j =>
            rw [hf] at h
            simp only [Option.map_some', Option.some.injEq] at h
            omega

theorem firstIdxOf_none_not_contains {c : Char} : ∀ {s : List Char},
    firstIdxOf c s = none → s.contains c = false := by
  intro s
  induction s with
  | nil => intro _; rfl
  | cons a rest ih =>
      intro h
      unfold firstIdxOf at h
      by_cases ha : a == c
      · rw [if_pos ha] at h; cases h
      · rw [if_neg ha] at h
        cases hf : firstIdxOf c rest with
        | some j => rw [hf] at h; cases h
        | none =>
            have hr := ih hf
            simp only [List.contains_cons, Bool.or_eq_false_iff]
            constructor
            · cases hb : c == a with
              | false => rfl
              | true => exact absurd (by simp [eq_of_beq hb]) ha
            · exact hr

theorem contains_firstIdxOf {c : Char} {s : List Char}
    (h : s.contains c = true) : ∃ i, firstIdxOf c s = some i := by
  cases hf : firstIdxOf c s with
  | some i => exact ⟨i, rfl⟩
  | none => rw [firstIdxOf_none_not_contains hf] at h; cases h

theorem firstIdxOf_decomp {c : Char} : ∀ {s : List Char} {i : Nat},
    firstIdxOf c s = some i → s = s.take i ++ c :: s.drop (i + 1) := by
  intro s
  induction s with
  | nil => intro i h; simp [firstIdxOf] at h
  | cons a rest ih =>
      intro i h
      unfold firstIdxOf at h
      by_cases ha : a == c
      · rw [if_pos ha] at h
        simp only [Option.some.injEq] at h
        subst h
        simp [eq_of_beq ha]
      · rw [if_neg ha] at h
        cases hf : firstIdxOf c rest with
        | none => rw [hf] at h; simp at h
        | some j =>
            rw [hf] at h
            simp only [Option.map_some', Option.some.injEq] at h
            subst h
            have := ih hf
            simpa using this

theorem take_firstIdxOf_not_contains {c : Char} : ∀ {s : List Char} {i : Nat},
    firstIdxOf c s = some i → (s.take i).contains c = false := by
  intro s
  induction s with
  | nil => intro i h; simp [firstIdxOf] at h
  | cons a rest ih =>
      intro i h
      unfold firstIdxOf at h
      by_cases ha : a == c
      · rw [if_pos ha] at h
        simp only [Option.some.injEq] at h
        subst h
        simp
      · rw [if_neg ha] at h
        cases hf : firstIdxOf c rest with
        | none => rw [hf] at h; simp at h
        | some j =>
            rw [hf] at h
            simp only [Option.map_some', Option.some.injEq] at h
            subst h
            simp only [List.take_succ_cons, List.contains_cons, Bool.or_eq_false_iff]
            constructor
            · cases hb : c == a with
              | false => rfl
              | true => exact absurd (by simp [eq_of_beq hb]) ha
            · exact ih hf

theorem lastIdxOf_lt {c : Char} : ∀ {s : List Char} {j : Nat},
    lastIdxOf c s = some j → j < s.length := by
  intro s
  induction s with
  | nil => intro j h; simp [lastIdxOf] at h
  | cons a rest ih =>
      intro j h
      unfold lastIdxOf at h
      cases hr : lastIdxOf c rest with
      | some k =>
          rw [hr] at h
          simp only [Option.some.injEq] at h
          subst h
          have := ih hr
          simp only [List.length_cons]
          omega
      | none =>
          rw [hr] at h
          by_cases ha : a == c
          · rw [if_pos ha] at h
            simp only [Option.some.injEq] at h
            subst h
            simp
          · rw [if_neg ha] at h; cases h

theorem idxOfSub_add_le {pat : List Char} (hp : pat ≠ []) : ∀ {s : List Char} {i : Nat},
    idxOfSub pat s = some i → i + pat.length ≤ s.length := by
  intro s
  induction s with
  | nil => intro i h; simp [idxOfSub, hp] at h
  | cons a rest ih =>
      intro i h
      unfold idxOfSub at h
      by_cases hpre : pat.isPrefixOf (a :: rest)
      · simp [hpre] at h
        subst h
        simpa using (List.isPrefixOf_iff_prefix.mp hpre).length_le
      · simp [hpre] at h
        obtain ⟨j, hj, rfl⟩ := h
        have := ih hj
        simp
        omega

theorem stripPre_length_lt {pat s r : List Char} (hp : pat ≠ [])
    (h : stripPre pat s = some r) : r.length < s.length := by
  unfold stripPre at h
  by_cases hpre : pat.isPrefixOf s
  · simp [hpre] at h
    subst h
    have hle := (List.isPrefixOf_iff_prefix.mp hpre).length_le
    have : 0 < pat.length := List.length_pos.mpr hp
    simp [List.length_drop]
    omega
  · simp [hpre] at h

theorem afterKw_length_lt {kws : List (List Char)} (hk : ∀ k ∈ kws, k ≠ []) :
    ∀ {s r : List Char}, afterKw kws s = some r → r.length < s.length := by
  induction kws with
  | nil => intro s r h; simp [afterKw] at h
  | cons k rest ih =>
      intro s r h
      unfold afterKw at h
      cases hs : stripPre k s with
      | some r2 =>
          rw [hs] at h
          simp at h
          subst h
          exact stripPre_length_lt (hk k (by simp)) hs
      | none =>
          rw [hs] at h
          exact ih (fun x hx => hk x (by simp [hx])) h

theorem length_dropWhile_le (p : Char → Bool) (s : List Char) :
    (s.dropWhile p).length ≤ s.length :=
  (List.dropWhile_suffix p).length_le

theorem length_skipWS_le (s : List Char) : (skipWS s).length ≤ s.length :=
  length_dropWhile_le _ _

theorem head?_dropWhile_ne (p : Char → Bool) (s : List Char) :
    ∀ {a : Char}, (s.dropWhile p).head? = some a → p a = false := by
  induction s with
  | nil => intro a h; simp at h
  | cons b rest ih =>
      intro a h
      by_cases hb : p b
      · rw [List.dropWhile_cons_of_pos hb] at h
        exact ih h
      · rw [List.dropWhile_cons_of_neg hb] at h
        simp only [List.head?_cons, Option.some.injEq] at h
        subst h
        simpa using hb

/-!  ## Lower and upper bounds on classified block lengths

These establish the parser's forward progress: at a nonempty cursor that does
not begin with a newline, every classification consumes at least one and at
most all remaining characters. -/

theorem braceLoop_ge_pos : ∀ (r : List Char) (d : Int) (p : Nat), p ≤ braceLoop r d p := by
  intro r
  induction r with
  | nil => intro d p; simp [braceLoop]
  | cons c rest ih =>
      intro d p
      unfold braceLoop
      split
      · omega
      · exact le_trans (by omega) (ih (braceStep c d) (p + 1))

theorem braceLoop_ge {r : List Char} (hr : r ≠ []) (d : Int) (p : Nat) :
    p + 1 ≤ braceLoop r d p := by
  cases r with
  | nil => exact absurd rfl hr
  | cons c rest =>
      unfold braceLoop
      split
      · omega
      · exact braceLoop_ge_pos rest (braceStep c d) (p + 1)

theorem braceLoop_le : ∀ (r : List Char) (d : Int) (p : Nat), braceLoop r d p ≤ p + r.length := by
  intro r
  induction r with
  | nil => intro d p; simp [braceLoop]
  | cons c rest ih =>
      intro d p
      unfold braceLoop
      split
      · simp
      · have := ih (braceStep c d) (p + 1)
        simp only [List.length_cons]
        omega

theorem countSemis_le (s : List Char) : countSemis s ≤ s.length := by
  unfold countSemis
  exact (List.takeWhile_prefix _).length_le

theorem getBlockLength_bounds {s : List Char} {i : Nat}
    (h : firstIdxOf lbrace s = some i) :
    1 ≤ getBlockLength s ∧ getBlockLength s ≤ (s.length : Int) := by
  have hi := firstIdxOf_lt h
  have hne : s.drop i ≠ [] := by
    intro hc
    have h0 : (s.drop i).length = 0 := by rw [hc]; rfl
    rw [List.length_drop] at h0
    omega
  have h1 := braceLoop_ge hne 0 i
  have h2 := braceLoop_le (s.drop i) 0 i
  rw [List.length_drop] at h2
  have h3 := countSemis_le (s.drop (braceLoop (s.drop i) 0 i))
  rw [List.length_drop] at h3
  have hlow : 1 ≤ braceLoop (s.drop i) 0 i + countSemis (s.drop (braceLoop (s.drop i) 0 i)) := by
    omega
  have hhigh : braceLoop (s.drop i) 0 i +
      countSemis (s.drop (braceLoop (s.drop i) 0 i)) ≤ s.length := by
    omega
  unfold getBlockLength
  rw [h]
  dsimp only
  constructor
  · exact_mod_cast hlow
  · exact_mod_cast hhigh

theorem commentRunLen_le : ∀ (fuel : Nat) (s : List Char), commentRunLen fuel s ≤ s.length := by
  intro fuel
  induction fuel with
  | zero => intro s; simp [commentRunLen]
  | succ n ih =>
      intro s
      unfold commentRunLen
      split
      · split
        · next i hi =>
            have h1 := firstIdxOf_lt hi
            have h2 := ih (s.drop (i + 1))
            rw [List.length_drop] at h2
            omega
        · simp
      · simp

theorem matchCommentLine_contains_nl {s : List Char} (h : matchCommentLine s = true) :
    s.contains nl = true := by
  unfold matchCommentLine at h
  split at h
  · next rest heq =>
      have hsub : rest <:+ s := by
        have h1 : rest <:+ skipWS s := ⟨['/', '/'], heq.symm ▸ rfl⟩
        have h2 : skipWS s <:+ s := List.dropWhile_suffix _
        exact h1.trans h2
      have : nl ∈ rest := by simpa using h
      have : nl ∈ s := hsub.subset this
      simpa using this
  · cases h

theorem matchCommentBlock_contains_nl {s : List Char} (h : matchCommentBlock s = true) :
    s.contains nl = true := by
  unfold matchCommentBlock at h
  split at h
  · next rest heq =>
      have hsub : rest <:+ s := by
        have h1 : rest <:+ skipWS s := ⟨['/', '*'], heq.symm ▸ rfl⟩
        have h2 : skipWS s <:+ s := List.dropWhile_suffix _
        exact h1.trans h2
      have : nl ∈ rest := by simpa using h
      have : nl ∈ s := hsub.subset this
      simpa using this
  · cases h

theorem commentRunLen_bounds {s : List Char} (hh : s.head? ≠ some nl)
    (hm : matchCommentLine s = true) {fuel : Nat} (hf : 1 ≤ fuel) :
    2 ≤ commentRunLen fuel s := by
  obtain ⟨i, hi⟩ := contains_firstIdxOf (matchCommentLine_contains_nl hm)
  have hpos := firstIdxOf_pos hh hi
  cases fuel with
  | zero => omega
  | succ n =>
      unfold commentRunLen
      rw [if_pos hm, hi]
      dsimp only
      omega

theorem varMatchLen_bounds {s : List Char} {k : Nat} (h : varMatchLen s = some k) :
    1 ≤ k ∧ k ≤ s.length := by
  unfold varMatchLen at h
  cases hkw : afterKw ["const".toList, "var".toList, "let".toList] (skipWS s) with
  | none => rw [hkw] at h; cases h
  | some r1 =>
      rw [hkw] at h
      have hr1 : r1.length < (skipWS s).length :=
        afterKw_length_lt (by intro k hk; fin_cases hk <;> simp) hkw
      have hskip : (skipWS s).length ≤ s.length := length_dropWhile_le _ _
      cases r1 with
      | nil => simp at h
      | cons c rest1 =>
          simp only at h
          split at h
          · set r2 := skipWS (c :: rest1) with hr2
            have hr2le : r2.length ≤ (c :: rest1).length := length_dropWhile_le _ _
            set idlen := (r2.takeWhile identChar).length with hidlen
            split at h
            · split at h
              · next r4 heq4 =>
                  simp only [Option.some.injEq] at h
                  set rest := (skipWS r4).dropWhile (fun ch => ch != nl) with hrest
                  have c1 : rest.length ≤ (skipWS r4).length := length_dropWhile_le _ _
                  have c2 : (skipWS r4).length ≤ r4.length := length_dropWhile_le _ _
                  have c3 : r4.length < (skipWS (r2.drop idlen)).length := by
                    rw [heq4]; simp
                  have c4 : (skipWS (r2.drop idlen)).length ≤ (r2.drop idlen).length :=
                    length_dropWhile_le _ _
                  have c5 : (r2.drop idlen).length ≤ r2.length := by
                    rw [List.length_drop]; omega
                  have : rest.length < s.length := by
                    simp only [List.length_cons] at hr2le hr1
                    omega
                  omega
              · cases h
            · cases h
          · cases h

theorem assignMatchLen_bounds {s : List Char} {k : Nat} (h : assignMatchLen s = some k) :
    1 ≤ k ∧ k ≤ s.length := by
  unfold assignMatchLen at h
  simp only at h
  split at h
  · split at h
    · next r2 heq2 =>
        cases hl : lastIdxOf ';' ((skipWS r2).takeWhile (fun ch => ch != nl)) with
        | none => rw [hl] at h; cases h
        | some j =>
            rw [hl] at h
            simp only [Option.some.injEq] at h
            have hj : j < ((skipWS r2).takeWhile (fun ch => ch != nl)).length := lastIdxOf_lt hl
            have hlr : ((skipWS r2).takeWhile (fun ch => ch != nl)).length ≤ (skipWS r2).length :=
              (List.takeWhile_prefix _).length_le
            have h3 : (skipWS r2).length ≤ r2.length := length_skipWS_le _
            have h4 : r2.length <
                (skipWS ((skipWS s).drop ((skipWS s).takeWhile identDotChar).length)).length := by
              rw [heq2]; simp
            have h5 : (skipWS ((skipWS s).drop ((skipWS s).takeWhile identDotChar).length)).length ≤
                (skipWS s).length := by
              have hq := length_skipWS_le
                ((skipWS s).drop ((skipWS s).takeWhile identDotChar).length)
              have hq2 : (((skipWS s).drop ((skipWS s).takeWhile identDotChar).length)).length ≤
                  (skipWS s).length := by
                rw [List.length_drop]; omega
              omega
            have h6 : (skipWS s).length ≤ s.length := length_skipWS_le _
            omega
    · cases h
  · cases h

theorem suffix_contains {a : Char} {r s : List Char} (h : r <:+ s)
    (hc : r.contains a = true) : s.contains a = true := by
  have : a ∈ r := by simpa using hc
  simpa using h.subset this

theorem funCommon_contains_lbrace {s : List Char} (h : funCommon s = true) :
    s.contains lbrace = true := by
  unfold funCommon at h
  split at h
  · next rest heq =>
      split at h
      · next r2 heq2 =>
          have hhead : lbrace ∈ skipWS r2 := by
            cases hs : (skipWS r2).head? with
            | none => rw [hs] at h; cases h
            | some a =>
                rw [hs] at h
                have : a = lbrace := by simpa using h
                subst this
                cases hsk : skipWS r2 with
                | nil => rw [hsk] at hs; cases hs
                | cons b t => rw [hsk] at hs; simp at hs; simp [hsk, hs]
          have s1 : skipWS r2 <:+ r2 := List.dropWhile_suffix _
          have s2 : r2 <:+ rest.dropWhile (fun c => c != '(' && c != ')') := by
            rw [heq2]; exact ⟨[')'], rfl⟩
          have s3 : rest.dropWhile (fun c => c != '(' && c != ')') <:+ rest :=
            List.dropWhile_suffix _
          have s4 : rest <:+ skipWS s := by rw [heq]; exact ⟨['('], rfl⟩
          have s5 : skipWS s <:+ s := List.dropWhile_suffix _
          have : lbrace ∈ s := (((s1.trans s2).trans s3).trans s4 |>.trans s5).subset hhead
          simpa using this
      · cases h
  · cases h

theorem matchFun_contains_lbrace {s : List Char} (h : matchFun s = true) :
    s.contains lbrace = true := by
  unfold matchFun at h
  have hws : skipWS s <:+ s := List.dropWhile_suffix _
  rcases Bool.or_eq_true_iff.mp h with hA | hB
  · unfold matchFunA at hA
    cases hkw : afterKw ["let".toList, "var".toList, "const".toList] (skipWS s) with
    | none => rw [hkw] at hA; cases hA
    | some r1 =>
        rw [hkw] at hA
        cases r1 with
        | nil => exact Bool.noConfusion hA
        | cons c rest1 =>
            dsimp only at hA
            simp only [Bool.and_eq_true] at hA
            obtain ⟨-, hA⟩ := hA
            obtain ⟨-, hA⟩ := hA
            split at hA
            · next r4 heq4 =>
                cases hsp : stripPre "function".toList (skipWS r4) with
                | none => rw [hsp] at hA; cases hA
                | some r5 =>
                    rw [hsp] at hA
                    have hr5 : r5.contains lbrace = true := funCommon_contains_lbrace hA
                    have s1 : r5 <:+ skipWS r4 := by
                      unfold stripPre at hsp
                      split at hsp
                      · simp at hsp; subst hsp; exact List.drop_suffix _ _
                      · cases hsp
                    have s2 : skipWS r4 <:+ r4 := List.dropWhile_suffix _
                    have s3 : r4 <:+ skipWS ((skipWS (c :: rest1)).drop
                        ((skipWS (c :: rest1)).takeWhile identChar).length) := by
                      rw [heq4]; exact ⟨['='], rfl⟩
                    have s4 : skipWS ((skipWS (c :: rest1)).drop
                        ((skipWS (c :: rest1)).takeWhile identChar).length) <:+
                        (skipWS (c :: rest1)).drop
                        ((skipWS (c :: rest1)).takeWhile identChar).length :=
                      List.dropWhile_suffix _
                    have s5 : (skipWS (c :: rest1)).drop
                        ((skipWS (c :: rest1)).takeWhile identChar).length <:+
                        skipWS (c :: rest1) := List.drop_suffix _ _
                    have s6 : skipWS (c :: rest1) <:+ (c :: rest1) := List.dropWhile_suffix _
                    have s7 : (c :: rest1) <:+ skipWS s := by
                      unfold afterKw at hkw
                      unfold afterKw at hkw
                      unfold afterKw at hkw
                      cases h1 : stripPre "let".toList (skipWS s) with
                      | some rr =>
                          rw [h1] at hkw
                          simp at hkw
                          subst hkw
                          unfold stripPre at h1
                          split at h1
                          · simp at h1; rw [← h1]; exact List.drop_suffix _ _
                          · cases h1
                      | none =>
                          rw [h1] at hkw
                          cases h2 : stripPre "var".toList (skipWS s) with
                          | some rr =>
                              rw [h2] at hkw
                              simp at hkw
                              subst hkw
                              unfold stripPre at h2
                              split at h2
                              · simp at h2; rw [← h2]; exact List.drop_suffix _ _
                              · cases h2
                          | none =>
                              rw [h2] at hkw
                              cases h3 : stripPre "const".toList (skipWS s) with
                              | some rr =>
                                  rw [h3] at hkw
                                  simp at hkw
                                  subst hkw
                                  unfold stripPre at h3
                                  split at h3
                                  · simp at h3; rw [← h3]; exact List.drop_suffix _ _
                                  · cases h3
                              | none => rw [h3] at hkw; cases hkw
                    exact suffix_contains
                      (((((((s1.trans s2).trans s3).trans s4).trans s5).trans s6).trans s7).trans hws) hr5
            · cases hA
  · unfold matchFunB at hB
    cases hsp : stripPre "function".toList (skipWS s) with
    | none => rw [hsp] at hB; cases hB
    | some r1 =>
        rw [hsp] at hB
        cases r1 with
        | nil => exact Bool.noConfusion hB
        | cons c rest1 =>
            dsimp only at hB
            simp only [Bool.and_eq_true] at hB
            obtain ⟨-, hB⟩ := hB
            obtain ⟨-, hB⟩ := hB
            have hr : ((skipWS (c :: rest1)).drop
                ((skipWS (c :: rest1)).takeWhile alnumChar).length).contains lbrace = true :=
              funCommon_contains_lbrace hB
            have s1 : (skipWS (c :: rest1)).drop
                ((skipWS (c :: rest1)).takeWhile alnumChar).length <:+ skipWS (c :: rest1) :=
              List.drop_suffix _ _
            have s2 : skipWS (c :: rest1) <:+ (c :: rest1) := List.dropWhile_suffix _
            have s3 : (c :: rest1) <:+ skipWS s := by
              unfold stripPre at hsp
              split at hsp
              · simp at hsp; rw [← hsp]; exact List.drop_suffix _ _
              · cases hsp
            exact suffix_contains (((s1.trans s2).trans s3).trans hws) hr

theorem head?_mem {a : Char} {l : List Char} (h : l.head? = some a) : a ∈ l := by
  cases l with
  | nil => cases h
  | cons b t =>
      simp only [List.head?_cons, Option.some.injEq] at h
      simp [h]

theorem matchClass_contains_lbrace {s : List Char} (h : matchClass s = true) :
    s.contains lbrace = true := by
  unfold matchClass at h
  have hws : skipWS s <:+ s := List.dropWhile_suffix _
  cases hsp : stripPre "class".toList (skipWS s) with
  | none => rw [hsp] at h; cases h
  | some r1 =>
      rw [hsp] at h
      have hr1 : r1 <:+ skipWS s := by
        unfold stripPre at hsp
        split at hsp
        · simp at hsp; rw [← hsp]; exact List.drop_suffix _ _
        · cases hsp
      cases r1 with
      | nil => exact Bool.noConfusion h
      | cons c rest1 =>
          dsimp only at h
          simp only [Bool.and_eq_true] at h
          obtain ⟨-, h⟩ := h
          obtain ⟨-, h⟩ := h
          have hchain : skipWS (c :: rest1) <:+ s :=
            ((List.dropWhile_suffix _).trans hr1).trans hws
          set r2 := skipWS (c :: rest1) with hr2def
          set idlen := (r2.takeWhile identChar).length with hidlendef
          have hr3 : r2.drop idlen <:+ s := (List.drop_suffix _ _).trans hchain
          rcases Bool.or_eq_true_iff.mp h with h4 | h5
          · have hmem : lbrace ∈ (r2.drop idlen).drop
                ((r2.drop idlen).takeWhile wsChar).length := head?_mem (by simpa using h4)
            have : lbrace ∈ s := ((List.drop_suffix _ _).trans hr3).subset hmem
            simpa using this
          · simp only [Bool.and_eq_true] at h5
            obtain ⟨-, h5⟩ := h5
            split at h5
            · next d r5rest heq5 =>
                simp only [Bool.and_eq_true] at h5
                obtain ⟨-, h5⟩ := h5
                obtain ⟨-, h5⟩ := h5
                have hmem : lbrace ∈ skipWS ((skipWS (d :: r5rest)).drop
                    ((skipWS (d :: r5rest)).takeWhile identChar).length) :=
                  head?_mem (by simpa using h5)
                have c1 : skipWS ((skipWS (d :: r5rest)).drop
                    ((skipWS (d :: r5rest)).takeWhile identChar).length) <:+
                    skipWS (d :: r5rest) :=
                  (List.dropWhile_suffix _).trans (List.drop_suffix _ _)
                have c2 : skipWS (d :: r5rest) <:+ (d :: r5rest) := List.dropWhile_suffix _
                have c3 : (d :: r5rest) <:+ (r2.drop idlen).drop
                    ((r2.drop idlen).takeWhile wsChar).length := by
                  unfold stripPre at heq5
                  split at heq5
                  · simp only [Option.some.injEq] at heq5
                    rw [← heq5]
                    exact List.drop_suffix _ _
                  · cases heq5
                have : lbrace ∈ s :=
                  ((((c1.trans c2).trans c3).trans (List.drop_suffix _ _)).trans hr3).subset hmem
                simpa using this
            · exact Bool.noConfusion h5

theorem matchMethod_contains_lbrace {s : List Char} (h : matchMethod s = true) :
    s.contains lbrace = true := by
  unfold matchMethod at h
  simp only [Bool.and_eq_true] at h
  obtain ⟨-, h⟩ := h
  have hr := funCommon_contains_lbrace h
  have hchain : (skipWS s).drop ((skipWS s).takeWhile identChar).length <:+ s :=
    (List.drop_suffix _ _).trans (List.dropWhile_suffix _)
  exact suffix_contains hchain hr

theorem getUnknownBlockMeta_bounds {s : List Char} (hne : s ≠ []) (hh : s.head? ≠ some nl) :
    1 ≤ (getUnknownBlockMeta s).length ∧ (getUnknownBlockMeta s).length ≤ (s.length : Int) := by
  have hpos : 0 < s.length := List.length_pos.mpr hne
  unfold getUnknownBlockMeta
  cases hnl : firstIdxOf nl s with
  | none =>
      dsimp only
      constructor
      · exact_mod_cast hpos
      · exact le_refl _
  | some i =>
      dsimp only
      have h1 := firstIdxOf_pos hh hnl
      have h2 := firstIdxOf_lt hnl
      constructor
      · exact_mod_cast h1
      · exact_mod_cast le_of_lt h2

/-- Forward progress and soundness of the classifier's consumed length: at a
nonempty cursor that does not begin with a newline the classified length is at
least one and at most the cursor length.  This is the property that makes
ContentBlock.loadCode's while loop advance. -/
theorem getBlockMeta_bounds {s : List Char} (hne : s ≠ []) (hh : s.head? ≠ some nl) :
    1 ≤ (getBlockMeta s).length ∧ (getBlockMeta s).length ≤ (s.length : Int) := by
  have hpos : 0 < s.length := List.length_pos.mpr hne
  unfold getBlockMeta
  cases hnl : firstIdxOf nl s with
  | none => exact getUnknownBlockMeta_bounds hne hh
  | some i =>
      dsimp only
      by_cases hbig : 1000 < i
      · rw [if_pos hbig]; exact getUnknownBlockMeta_bounds hne hh
      rw [if_neg hbig]
      by_cases h1 : matchCommentLine s
      · rw [if_pos h1]
        unfold getCommentLineMeta
        have h2 : 2 ≤ commentRunLen s.length s := commentRunLen_bounds hh h1 (by omega)
        have h3 := commentRunLen_le s.length s
        constructor <;> simp <;> omega
      rw [if_neg h1]
      by_cases h2 : matchCommentBlock s
      · rw [if_pos h2]
        unfold getCommentBlockMeta
        cases hsub : idxOfSub ['*', '/'] s with
        | none =>
            dsimp only
            have h1n : (1 : Int) ≤ (s.length : Int) := by exact_mod_cast hpos
            constructor <;> omega
        | some j =>
            dsimp only
            have hadd := idxOfSub_add_le (by simp) hsub
            simp only [List.length_cons, List.length_nil] at hadd
            have hadd2 : (j : Int) + 2 ≤ (s.length : Int) := by exact_mod_cast hadd
            constructor <;> omega
      rw [if_neg h2]
      by_cases h3 : matchRequire s
      · rw [if_pos h3]
        unfold getRequireModuleMeta
        rw [hnl]
        dsimp only
        have ha := firstIdxOf_pos hh hnl
        have hb := firstIdxOf_lt hnl
        constructor
        · exact_mod_cast ha
        · exact_mod_cast le_of_lt hb
      rw [if_neg h3]
      by_cases h4 : matchFun s
      · rw [if_pos h4]
        unfold getFunDeclarationMeta
        obtain ⟨j, hj⟩ := contains_firstIdxOf (matchFun_contains_lbrace h4)
        exact getBlockLength_bounds hj
      rw [if_neg h4]
      by_cases h5 : matchVar s
      · rw [if_pos h5]
        unfold getVarDeclarationMeta
        obtain ⟨k, hk⟩ := Option.isSome_iff_exists.mp h5
        rw [hk]
        dsimp only
        have hv := varMatchLen_bounds hk
        constructor
        · exact_mod_cast hv.1
        · exact_mod_cast hv.2
      rw [if_neg h5]
      by_cases h6 : matchClass s
      · rw [if_pos h6]
        unfold getClassDeclarationMeta
        obtain ⟨j, hj⟩ := contains_firstIdxOf (matchClass_contains_lbrace h6)
        exact getBlockLength_bounds hj
      rw [if_neg h6]
      by_cases h7 : matchAssign s
      · rw [if_pos h7]
        unfold getAssignmentMeta
        obtain ⟨k, hk⟩ := Option.isSome_iff_exists.mp h7
        rw [hk]
        dsimp only
        have hv := assignMatchLen_bounds hk
        constructor
        · exact_mod_cast hv.1
        · exact_mod_cast hv.2
      rw [if_neg h7]
      by_cases h8 : matchMethod s
      · rw [if_pos h8]
        unfold getMethodDeclarationMeta
        obtain ⟨j, hj⟩ := contains_firstIdxOf (matchMethod_contains_lbrace h8)
        exact getBlockLength_bounds hj
      rw [if_neg h8]
      exact getUnknownBlockMeta_bounds hne hh

/-!  ## Coverage and termination of the content parser -/

theorem drop_length_takeWhile (p : Char → Bool) (l : List Char) :
    l.drop (l.takeWhile p).length = l.dropWhile p := by
  induction l with
  | nil => simp
  | cons c rest ih =>
      by_cases h : p c
      · simp [List.takeWhile_cons, List.dropWhile_cons, h, ih]
      · simp [List.takeWhile_cons, List.dropWhile_cons, h]

theorem takeWhile_beq_eq_replicate (a : Char) (l : List Char) :
    l.takeWhile (· == a) = List.replicate (l.takeWhile (· == a)).length a := by
  refine List.eq_replicate_iff.mpr ⟨rfl, ?_⟩
  intro b hb
  have := List.mem_takeWhile_imp hb
  exact eq_of_beq this

theorem parseLoop_nil (fuel row e : Nat) : parseLoop fuel [] row e = [] := by
  cases fuel with
  | zero => rfl
  | succ n => simp [parseLoop]

/-- Unfolding equation for blocksRebuild on a cons cell. -/
theorem blocksRebuild_cons (b : RawBlock) (tl : List RawBlock) :
    blocksRebuild (b :: tl) =
      b.content ++ (if b.nlConsumed then [nl] else []) ++
        List.replicate b.rowsAfter nl ++ blocksRebuild tl := rfl

/-- Coverage of the loop: the produced blocks, with the consumed newline and
the counted blank rows reinstated, reassemble the cursor exactly.  This is the
no-loss/no-overlap property of ContentBlock.loadCode. -/
theorem parseLoop_rebuild : ∀ (fuel : Nat) (c : List Char) (row e : Nat),
    c.length ≤ fuel → c.head? ≠ some nl → blocksRebuild (parseLoop fuel c row e) = c := by
  intro fuel
  induction fuel with
  | zero =>
      intro c row e hf _
      have : c = [] := List.length_eq_zero.mp (by omega)
      subst this
      rfl
  | succ n ih =>
      intro c row e hf hh
      by_cases hc : c.isEmpty
      · have : c = [] := by simpa [List.isEmpty_iff] using hc
        subst this
        rfl
      · have hcne : c ≠ [] := by simpa [List.isEmpty_iff] using hc
        obtain ⟨hlo, hhi⟩ := getBlockMeta_bounds hcne hh
        unfold parseLoop
        rw [if_neg (by simpa using hc)]
        rw [blocksRebuild_cons]
        dsimp only
        have hbceq : jsSliceTo c (getBlockMeta c).length =
            c.take (getBlockMeta c).length.toNat := by
          unfold jsSliceTo
          rw [if_neg (by omega)]
        have hbclen : (jsSliceTo c (getBlockMeta c).length).length =
            (getBlockMeta c).length.toNat := by
          rw [hbceq]
          simp only [List.length_take]
          omega
        set K := (getBlockMeta c).length.toNat with hK
        have hK1 : 1 ≤ K := by omega
        have hK2 : K ≤ c.length := by omega
        rw [hbclen, hbceq]
        set rest := c.drop K with hrest
        have hsplit : c.take K ++ rest = c := List.take_append_drop K c
        have hrestlen : rest.length = c.length - K := by
          rw [hrest, List.length_drop]
        by_cases hnlc : rest.head? = some nl
        · have hb : (rest.head? == some nl) = true := by simp [hnlc]
          obtain ⟨t, ht⟩ : ∃ t, rest = nl :: t := by
            cases hr : rest with
            | nil => rw [hr] at hnlc; simp at hnlc
            | cons a t2 =>
                rw [hr] at hnlc
                simp only [List.head?_cons, Option.some.injEq] at hnlc
                exact ⟨t2, by rw [hnlc]⟩
          have hifA : (if (rest.head? == some nl) = true then rest.tail else rest) = t := by
            rw [hb, ht]
            simp
          have hifB : (if (rest.head? == some nl) = true then [nl] else ([] : List Char)) =
              [nl] := by
            rw [hb]
            simp
          rw [hifA, hifB]
          have ht2 : t.drop (t.takeWhile (· == nl)).length = t.dropWhile (· == nl) :=
            drop_length_takeWhile _ t
          have hhead2 : (t.drop (t.takeWhile (· == nl)).length).head? ≠ some nl := by
            rw [ht2]
            intro hcon
            have := head?_dropWhile_ne (· == nl) t hcon
            simp at this
          have hlen2 : (t.drop (t.takeWhile (· == nl)).length).length ≤ n := by
            have h2 : rest.length = t.length + 1 := by rw [ht]; simp
            have h3 : (t.drop (t.takeWhile (· == nl)).length).length ≤ t.length := by
              rw [List.length_drop]; omega
            omega
          rw [ih _ _ _ hlen2 hhead2]
          have hrepl : List.replicate (t.takeWhile (· == nl)).length nl ++
              t.drop (t.takeWhile (· == nl)).length = t := by
            rw [ht2, ← takeWhile_beq_eq_replicate nl t]
            exact List.takeWhile_append_dropWhile _ _
          calc (c.take K ++ [nl]) ++ List.replicate (t.takeWhile (· == nl)).length nl ++
              t.drop (t.takeWhile (· == nl)).length
              = c.take K ++ nl :: (List.replicate (t.takeWhile (· == nl)).length nl ++
                  t.drop (t.takeWhile (· == nl)).length) := by simp
            _ = c.take K ++ nl :: t := by rw [hrepl]
            _ = c.take K ++ rest := by rw [ht]
            _ = c := hsplit
        · have hb : (rest.head? == some nl) = false := by
            cases hr : rest.head? with
            | none => rfl
            | some a =>
                simp only [beq_eq_false_iff_ne, ne_eq, Option.some.injEq]
                intro hcon
                exact hnlc (by rw [hr, hcon])
          have hifA : (if (rest.head? == some nl) = true then rest.tail else rest) = rest := by
            rw [hb]
            simp
          have hifB : (if (rest.head? == some nl) = true then [nl] else ([] : List Char)) =
              [] := by
            rw [hb]
            simp
          rw [hifA, hifB]
          have he2z : (rest.takeWhile (· == nl)).length = 0 := by
            cases hr : rest with
            | nil => simp
            | cons a t2 =>
                have ha : a ≠ nl := by
                  intro hcon
                  exact hnlc (by rw [hr, hcon]; rfl)
                simp [List.takeWhile_cons, ha]
          rw [he2z]
          dsimp only [List.drop_zero]
          have hlen2 : rest.length ≤ n := by omega
          rw [ih _ _ _ hlen2 hnlc]
          simp only [List.replicate_zero, List.append_nil, List.nil_append]
          simpa using hsplit

/-- Termination (fuel-independence) of the loadCode loop: any two sufficient
fuels give the same block list, so fuel equal to the cursor length computes
the loop's true fixpoint. -/
theorem parseLoop_fuel_eq : ∀ (f1 f2 : Nat) (c : List Char) (row e : Nat),
    c.length ≤ f1 → c.length ≤ f2 → c.head? ≠ some nl →
    parseLoop f1 c row e = parseLoop f2 c row e := by
  intro f1
  induction f1 with
  | zero =>
      intro f2 c row e hf1 _ _
      have : c = [] := List.length_eq_zero.mp (by omega)
      subst this
      rw [parseLoop_nil, parseLoop_nil]
  | succ n ih =>
      intro f2 c row e hf1 hf2 hh
      by_cases hc : c.isEmpty
      · have : c = [] := by simpa [List.isEmpty_iff] using hc
        subst this
        rw [parseLoop_nil, parseLoop_nil]
      · have hcne : c ≠ [] := by simpa [List.isEmpty_iff] using hc
        obtain ⟨hlo, hhi⟩ := getBlockMeta_bounds hcne hh
        cases f2 with
        | zero =>
            exfalso
            have : c.length = 0 := by omega
            exact hcne (List.length_eq_zero.mp this)
        | succ m =>
            unfold parseLoop
            rw [if_neg (by simpa using hc), if_neg (by simpa using hc)]
            simp only [List.cons.injEq, true_and]
            have hbceq : jsSliceTo c (getBlockMeta c).length =
                c.take (getBlockMeta c).length.toNat := by
              unfold jsSliceTo
              rw [if_neg (by omega)]
            have hbclen : (jsSliceTo c (getBlockMeta c).length).length =
                (getBlockMeta c).length.toNat := by
              rw [hbceq]
              simp only [List.length_take]
              omega
            set rest := c.drop (jsSliceTo c (getBlockMeta c).length).length with hrest
            have hrestlen : rest.length ≤ c.length - 1 := by
              rw [hrest, List.length_drop]
              omega
            set rest1 := if (rest.head? == some nl) = true then rest.tail else rest with hrest1
            have hrest1len : rest1.length ≤ rest.length := by
              rw [hrest1]
              split
              · cases rest <;> simp
              · exact le_refl _
            have ht2 : rest1.drop (rest1.takeWhile (· == nl)).length =
                rest1.dropWhile (· == nl) := drop_length_takeWhile _ rest1
            have hhead2 : (rest1.drop (rest1.takeWhile (· == nl)).length).head? ≠ some nl := by
              rw [ht2]
              intro hcon
              have := head?_dropWhile_ne (· == nl) rest1 hcon
              simp at this
            have hlen2 : (rest1.drop (rest1.takeWhile (· == nl)).length).length ≤ c.length - 1 := by
              have : (rest1.drop (rest1.takeWhile (· == nl)).length).length ≤ rest1.length := by
                rw [List.length_drop]
                omega
              omega
            exact ih m _ _ _ (by omega) (by omega) hhead2

theorem loadCode_head_rowsBefore {c : List Char} (row : Nat) (hne : c.dropWhile (· == nl) ≠ []) :
    ∃ b tl, loadCode c row = b :: tl ∧ b.rowsBefore = (c.takeWhile (· == nl)).length := by
  unfold loadCode
  set e0 := (c.takeWhile (· == nl)).length with he0
  have hdw : c.drop e0 = c.dropWhile (· == nl) := by
    rw [he0]; exact drop_length_takeWhile _ c
  have hlen : 1 ≤ (c.drop e0).length := by
    rw [hdw]
    exact List.length_pos.mpr hne
  have hflen : (c.drop e0).length ≤ c.length := by rw [List.length_drop]; omega
  cases hcl : c.length with
  | zero =>
      exfalso
      have : c = [] := List.length_eq_zero.mp hcl
      subst this
      simp at hne
  | succ m =>
      unfold parseLoop
      rw [if_neg]
      · exact ⟨_, _, rfl, rfl⟩
      · simp only [List.isEmpty_iff]
        intro hcon
        rw [hcon] at hlen
        simp at hlen

/-- Unfolding equation for rebuildContent on a cons cell. -/
theorem rebuildContent_cons (b : RawBlock) (tl : List RawBlock) :
    rebuildContent (b :: tl) = List.replicate b.rowsBefore nl ++ blocksRebuild (b :: tl) := rfl

/-- C1, amended part.  For every input that is not made exclusively of
newlines, concatenating the raw content of all blocks produced by
ContentBlock.loadCode, together with one newline per counted blank row and the
single newline consumed after a block when one was consumed, reconstructs the
original input exactly: no character is lost and no character is covered by
two blocks. -/
theorem c1_coverage (c : List Char) (row : Nat) (h : c.dropWhile (· == nl) ≠ []) :
    rebuildContent (loadCode c row) = c := by
  obtain ⟨b, tl, hbt, hrb⟩ := loadCode_head_rowsBefore row h
  rw [hbt, rebuildContent_cons, hrb]
  have hparse : blocksRebuild (b :: tl) = c.drop (c.takeWhile (· == nl)).length := by
    rw [← hbt]
    unfold loadCode
    apply parseLoop_rebuild
    · rw [List.length_drop]
      omega
    · rw [drop_length_takeWhile]
      intro hcon
      have := head?_dropWhile_ne _ _ hcon
      simp at this
  rw [hparse, drop_length_takeWhile, ← takeWhile_beq_eq_replicate nl c]
  exact List.takeWhile_append_dropWhile _ _

/-- C1, counterexample to the claim as stated: an input consisting of a single
newline yields zero blocks, so its counted blank row is dropped and the
reassembly is empty instead of the input. -/
theorem c1_counterexample :
    rebuildContent (loadCode ("\n".toList) 1) ≠ "\n".toList := by decide

/-- C1 witness: the amended coverage theorem applied to a concrete input. -/
theorem c1_witness :
    rebuildContent (loadCode ("// x\nvar a = 1;\n".toList) 1) = "// x\nvar a = 1;\n".toList :=
  c1_coverage ("// x\nvar a = 1;\n".toList) 1 (by decide)

/-- C10.  The minified-file quick-fix of CodeBlock.getBlockMeta: a cursor with
no newline at all is classified unknown over the whole remainder, and a cursor
whose first newline lies beyond index 1000 is classified unknown up to that
newline, in both cases without any pattern being consulted (the equations hold
with no assumption on which patterns match). -/
theorem c10_quickfix (c : List Char) :
    (firstIdxOf nl c = none → getBlockMeta c = ⟨"unknown", (c.length : Int)⟩) ∧
    (∀ i, firstIdxOf nl c = some i → 1000 < i → getBlockMeta c = ⟨"unknown", (i : Int)⟩) := by
  constructor
  · intro h
    unfold getBlockMeta getUnknownBlockMeta
    rw [h]
  · intro i h hbig
    unfold getBlockMeta getUnknownBlockMeta
    rw [h]
    dsimp only
    rw [if_pos hbig]

/-- C10 witness: a single-line function declaration with no newline matches
FUN_DECLARATION yet is classified unknown over the whole remainder. -/
theorem c10_witness :
    getBlockMeta ("function f()\x7b\x7d".toList) = ⟨"unknown", 14⟩ ∧
    matchFun ("function f()\x7b\x7d".toList) = true :=
  ⟨(c10_quickfix ("function f()\x7b\x7d".toList)).1 (by decide), by decide⟩

/-- C4, counterexample to the claim as stated: the classifier does not always
try the patterns in precedence order (a single-line function declaration with
no newline is classified unknown by the minified-input quick-fix although
FUN_DECLARATION matches and the specification-order classifier returns
funDeclaration), and the reported length is not always positive (a cursor
consisting of one newline is classified with length 0). -/
theorem c4_counterexample :
    getBlockMeta ("function f()\x7b\x7d".toList) = ⟨"unknown", 14⟩ ∧
    specOrderMeta ("function f()\x7b\x7d".toList) = ⟨"funDeclaration", 14⟩ ∧
    getBlockMeta ("\n".toList) = ⟨"unknown", 0⟩ := by
  refine ⟨?_, ?_, ?_⟩ <;> decide

/-- C4, amended.  For every nonempty cursor that does not begin with a line
break: when the cursor has no line break, or its first line break lies beyond
index 1000, the classifier returns the unknown meta (quick-fix); otherwise it
agrees with the classifier that tries the patterns in the fixed precedence
order comment-line run, comment-block, import, function declaration, variable
declaration, class declaration, assignment, bare method declaration, with the
unknown fallback; and the reported length is positive and at most the cursor
length, so parsing always advances. -/
theorem c4_classifier (c : List Char) (hne : c ≠ []) (hh : c.head? ≠ some nl) :
    ((firstIdxOf nl c = none ∨ ∃ i, firstIdxOf nl c = some i ∧ 1000 < i) →
        getBlockMeta c = getUnknownBlockMeta c) ∧
    (∀ i, firstIdxOf nl c = some i → i ≤ 1000 → getBlockMeta c = specOrderMeta c) ∧
    1 ≤ (getBlockMeta c).length ∧ (getBlockMeta c).length ≤ (c.length : Int) := by
  refine ⟨?_, ?_, getBlockMeta_bounds hne hh⟩
  · intro h
    unfold getBlockMeta
    rcases h with h | ⟨i, hi, hbig⟩
    · rw [h]
    · rw [hi]
      dsimp only
      rw [if_pos hbig]
  · intro i h hle
    unfold getBlockMeta specOrderMeta
    rw [h]
    dsimp only
    rw [if_neg (by omega)]

/-- C4 witness: the amended classifier theorem at a concrete assignment
cursor. -/
theorem c4_witness :
    getBlockMeta ("x = 1;\n".toList) = specOrderMeta ("x = 1;\n".toList) ∧
    1 ≤ (getBlockMeta ("x = 1;\n".toList)).length :=
  ⟨(c4_classifier ("x = 1;\n".toList) (by decide) (by decide)).2.1 6 (by decide) (by decide),
   (c4_classifier ("x = 1;\n".toList) (by decide) (by decide)).2.2.1⟩

/-!  ## The three-level linking model (loadCode lines 2315-2331, sliceContent
lines 2358-2366)

A block's six link pointers are modelled as indices into the produced block
list.  During the loadCode loop each consecutive pair (i, i+1) is linked
exactly once, when block i+1 is produced: level 0 unconditionally, level 1 iff
the new block has zero rows before it, level 2 iff the new block is not an
isolated comment.  Every pointer of every block is written at most once, so
the final mutable state equals the per-index computation mkNode below. -/

/-- A linked block: the parsed block, its position, and the six pointers of
`this.link` (prev/next at levels 0, 1, 2), as indices into the block list. -/
structure BNode where
  blk : RawBlock
  idx : Nat
  prev0 : Option Nat
  next0 : Option Nat
  prev1 : Option Nat
  next1 : Option Nat
  prev2 : Option Nat
  next2 : Option Nat
deriving Repr, DecidableEq

/-- Placeholder node for out-of-range reads. -/
def defaultNode : BNode := ⟨defaultRaw, 0, none, none, none, none, none, none⟩

instance : Inhabited BNode := ⟨defaultNode⟩

/-- Whether toSpecificInstance turns the block into a CommentBlock: both
comment kinds do (codeblock.js lines 1334-1336). -/
def isCommentInstance (b : RawBlock) : Bool :=
  b.btype == "commentLine" || b.btype == "commentBlock"

/-- loadCode's level-1 condition on the newly produced block (line 2321):
`specific.getRowsBefore() === 0`. -/
def linkCond1 (b : RawBlock) : Bool := b.rowsBefore == 0

/-- loadCode's level-2 condition on the newly produced block (line 2326):
`!((specific instanceof CommentBlock) && specific.getRowsAfter() > 0)` — the
new block is not an isolated comment. -/
def linkCond2 (b : RawBlock) : Bool := !(isCommentInstance b && decide (0 < b.rowsAfter))

/-- The final link state of the block at index i after the loadCode loop. -/
def mkNode (bs : List RawBlock) (i : Nat) : BNode :=
  { blk := bs.getD i defaultRaw
    idx := i
    prev0 := if i = 0 then none else some (i - 1)
    next0 := if i + 1 < bs.length then some (i + 1) else none
    prev1 := if i ≠ 0 ∧ linkCond1 (bs.getD i defaultRaw) = true then some (i - 1) else none
    next1 := if i + 1 < bs.length ∧ linkCond1 (bs.getD (i + 1) defaultRaw) = true then
        some (i + 1) else none
    prev2 := if i ≠ 0 ∧ linkCond2 (bs.getD i defaultRaw) = true then some (i - 1) else none
    next2 := if i + 1 < bs.length ∧ linkCond2 (bs.getD (i + 1) defaultRaw) = true then
        some (i + 1) else none }

/-- The fully linked content: one node per parsed block. -/
def linkBlocks (bs : List RawBlock) : List BNode :=
  (List.range bs.length).map (mkNode bs)

/-- Null out the three prev pointers (sliceContent lines 2360-2362). -/
def clearPrevs (n : BNode) : BNode :=
  { n with prev0 := none, prev1 := none, prev2 := none }

/-- Null out the three next pointers (sliceContent lines 2363-2365). -/
def clearNexts (n : BNode) : BNode :=
  { n with next0 := none, next1 := none, next2 := none }

/-- Modify the last element of a list. -/
def modifyLast (f : BNode → BNode) (l : List BNode) : List BNode :=
  (l.reverse.modifyHead f).reverse

/-- ContentBlock.sliceContent (lines 2358-2366): keep `blocks.slice(s, e)`,
then null the first kept block's prev pointers and the last kept block's next
pointers.  (The JS code would throw on an empty slice; the directive engine
always calls it with s = 0 and e ≥ 1.) -/
def sliceContent (ns : List BNode) (s e : Nat) : List BNode :=
  modifyLast clearNexts (((ns.drop s).take (e - s)).modifyHead clearPrevs)

theorem mkNode_idx (bs : List RawBlock) (i : Nat) : (mkNode bs i).idx = i := rfl

theorem linkBlocks_mem_decomp {bs : List RawBlock} {B : BNode} (h : B ∈ linkBlocks bs) :
    ∃ i, i < bs.length ∧ B = mkNode bs i := by
  unfold linkBlocks at h
  rw [List.mem_map] at h
  obtain ⟨i, hi, rfl⟩ := h
  exact ⟨i, List.mem_range.mp hi, rfl⟩

/-- The link-shape properties of a freshly linked pair of nodes. -/
theorem mkNode_pair_props {bs : List RawBlock} {i j : Nat}
    (hi : i < bs.length) (hj : j < bs.length) :
    (((mkNode bs i).next1 = some j → (mkNode bs i).next0 = some j) ∧
     ((mkNode bs i).next2 = some j → (mkNode bs i).next0 = some j)) ∧
    (((mkNode bs i).next0 = some j ↔ (mkNode bs j).prev0 = some i) ∧
     ((mkNode bs i).next1 = some j ↔ (mkNode bs j).prev1 = some i) ∧
     ((mkNode bs i).next2 = some j ↔ (mkNode bs j).prev2 = some i)) := by
  unfold mkNode
  dsimp only
  constructor
  · constructor
    · intro h
      split at h
      · next hcond =>
          simp only [Option.some.injEq] at h
          rw [if_pos hcond.1]
          simp [h]
      · cases h
    · intro h
      split at h
      · next hcond =>
          simp only [Option.some.injEq] at h
          rw [if_pos hcond.1]
          simp [h]
      · cases h
  · refine ⟨?_, ?_, ?_⟩
    · constructor
      · intro h
        split at h
        · next hcond =>
            simp only [Option.some.injEq] at h
            rw [if_neg (by omega)]
            simp
            omega
        · cases h
      · intro h
        split at h
        · cases h
        · next hj0 =>
            simp only [Option.some.injEq] at h
            rw [if_pos (by omega)]
            simp
            omega
    · constructor
      · intro h
        split at h
        · next hcond =>
            simp only [Option.some.injEq] at h
            subst h
            rw [if_pos ⟨by omega, by simpa using hcond.2⟩]
            simp
        · cases h
      · intro h
        split at h
        · next hcond =>
            simp only [Option.some.injEq] at h
            have hj0 : j ≠ 0 := hcond.1
            have hij : i = j - 1 := by omega
            subst hij
            rw [if_pos ⟨by omega, by
              have : j - 1 + 1 = j := by omega
              rw [this]
              exact hcond.2⟩]
            simp
            omega
        · cases h
    · constructor
      · intro h
        split at h
        · next hcond =>
            simp only [Option.some.injEq] at h
            subst h
            rw [if_pos ⟨by omega, by simpa using hcond.2⟩]
            simp
        · cases h
      · intro h
        split at h
        · next hcond =>
            simp only [Option.some.injEq] at h
            have hj0 : j ≠ 0 := hcond.1
            have hij : i = j - 1 := by omega
            subst hij
            rw [if_pos ⟨by omega, by
              have : j - 1 + 1 = j := by omega
              rw [this]
              exact hcond.2⟩]
            simp
            omega
        · cases h

theorem clearPrevs_idx (x : BNode) : (clearPrevs x).idx = x.idx := rfl

theorem clearNexts_idx (x : BNode) : (clearNexts x).idx = x.idx := rfl

theorem clearPrevs_next0 (x : BNode) : (clearPrevs x).next0 = x.next0 := rfl

theorem clearPrevs_next1 (x : BNode) : (clearPrevs x).next1 = x.next1 := rfl

theorem clearPrevs_next2 (x : BNode) : (clearPrevs x).next2 = x.next2 := rfl

theorem clearNexts_prev0 (x : BNode) : (clearNexts x).prev0 = x.prev0 := rfl

theorem clearNexts_prev1 (x : BNode) : (clearNexts x).prev1 = x.prev1 := rfl

theorem clearNexts_prev2 (x : BNode) : (clearNexts x).prev2 = x.prev2 := rfl

theorem mkNode_next0_inv {bs : List RawBlock} {i j : Nat}
    (h : (mkNode bs i).next0 = some j) : j = i + 1 ∧ i + 1 < bs.length := by
  unfold mkNode at h
  dsimp only at h
  split at h
  · next hc => simp only [Option.some.injEq] at h; omega
  · cases h

theorem mkNode_next1_inv {bs : List RawBlock} {i j : Nat}
    (h : (mkNode bs i).next1 = some j) : j = i + 1 ∧ i + 1 < bs.length := by
  unfold mkNode at h
  dsimp only at h
  split at h
  · next hc => simp only [Option.some.injEq] at h; omega
  · cases h

theorem mkNode_next2_inv {bs : List RawBlock} {i j : Nat}
    (h : (mkNode bs i).next2 = some j) : j = i + 1 ∧ i + 1 < bs.length := by
  unfold mkNode at h
  dsimp only at h
  split at h
  · next hc => simp only [Option.some.injEq] at h; omega
  · cases h

theorem getElem?_modifyHead (f : BNode → BNode) (l : List BNode) (p : Nat) :
    (l.modifyHead f)[p]? = if p = 0 then (l[0]?).map f else l[p]? := by
  cases l with
  | nil => cases p <;> simp [List.modifyHead]
  | cons a t => cases p <;> simp [List.modifyHead]

theorem length_modifyHead_node (f : BNode → BNode) (l : List BNode) :
    (l.modifyHead f).length = l.length := by
  cases l <;> simp [List.modifyHead]

theorem length_modifyLast (f : BNode → BNode) (l : List BNode) :
    (modifyLast f l).length = l.length := by
  unfold modifyLast
  rw [List.length_reverse, length_modifyHead_node, List.length_reverse]

theorem getElem?_modifyLast (f : BNode → BNode) (l : List BNode) (p : Nat) :
    (modifyLast f l)[p]? = if p + 1 = l.length then (l[p]?).map f else l[p]? := by
  by_cases hp : p < l.length
  · unfold modifyLast
    have hlen : p < (l.reverse.modifyHead f).length := by
      rw [length_modifyHead_node, List.length_reverse]
      exact hp
    rw [List.getElem?_reverse hlen]
    rw [length_modifyHead_node, List.length_reverse]
    rw [getElem?_modifyHead]
    have hidx : l.length - 1 - (l.length - 1 - p) = p := by omega
    by_cases hl : p + 1 = l.length
    · rw [if_pos (by omega : l.length - 1 - p = 0), if_pos hl]
      rw [List.getElem?_reverse (l := l) (by omega),
        (by omega : l.length - 1 - 0 = p)]
    · rw [if_neg (by omega), if_neg hl]
      rw [List.getElem?_reverse (l := l) (by omega), hidx]
  · have h1 : (modifyLast f l)[p]? = none := by
      rw [List.getElem?_eq_none_iff]
      rw [length_modifyLast]
      omega
    have h2 : l[p]? = none := by
      rw [List.getElem?_eq_none_iff]
      omega
    rw [h1, h2, if_neg (by omega)]

theorem getElem?_linkBlocks (bs : List RawBlock) (p : Nat) :
    (linkBlocks bs)[p]? = if p < bs.length then some (mkNode bs p) else none := by
  unfold linkBlocks
  rw [List.getElem?_map]
  by_cases hp : p < bs.length
  · rw [if_pos hp, List.getElem?_range hp]
    rfl
  · rw [if_neg hp, List.getElem?_eq_none_iff.mpr (by simpa using hp)]
    rfl

/-- The tweak applied by sliceContent to the node at kept position p. -/
def sliceTweak (bs : List RawBlock) (e p : Nat) : BNode :=
  (if p + 1 = min e bs.length then clearNexts else id)
    ((if p = 0 then clearPrevs else id) (mkNode bs p))

theorem sliceTweak_idx (bs : List RawBlock) (e p : Nat) : (sliceTweak bs e p).idx = p := by
  unfold sliceTweak
  split <;> split <;> rfl

theorem sliceContent_zero_getElem? (bs : List RawBlock) (e p : Nat) :
    (sliceContent (linkBlocks bs) 0 e)[p]? =
      if p < min e bs.length then some (sliceTweak bs e p) else none := by
  unfold sliceContent
  rw [getElem?_modifyLast, getElem?_modifyHead]
  have hlen1 : (((linkBlocks bs).drop 0).take (e - 0)).length = min e bs.length := by
    simp [linkBlocks]
  have htk : ∀ q : Nat, (((linkBlocks bs).drop 0).take (e - 0))[q]? =
      if q < min e bs.length then some (mkNode bs q) else none := by
    intro q
    simp only [List.drop_zero, Nat.sub_zero]
    rw [List.getElem?_take]
    by_cases hq : q < e
    · rw [if_pos hq, getElem?_linkBlocks]
      by_cases hq2 : q < bs.length
      · rw [if_pos hq2, if_pos (by omega)]
      · rw [if_neg hq2, if_neg (by omega)]
    · rw [if_neg hq, if_neg (by omega)]
  rw [length_modifyHead_node, hlen1]
  by_cases hp : p < min e bs.length
  · rw [if_pos hp]
    by_cases hl : p + 1 = min e bs.length
    · rw [if_pos hl]
      by_cases hz : p = 0
      · subst hz
        rw [if_pos rfl, htk 0, if_pos hp]
        unfold sliceTweak
        rw [if_pos hl, if_pos rfl]
        rfl
      · rw [if_neg hz, htk p, if_pos hp]
        unfold sliceTweak
        rw [if_pos hl, if_neg hz]
        rfl
    · rw [if_neg hl]
      by_cases hz : p = 0
      · subst hz
        rw [if_pos rfl, htk 0, if_pos hp]
        unfold sliceTweak
        rw [if_neg hl, if_pos rfl]
        rfl
      · rw [if_neg hz, htk p, if_pos hp]
        unfold sliceTweak
        rw [if_neg hl, if_neg hz]
        rfl
  · rw [if_neg hp]
    by_cases hl : p + 1 = min e bs.length
    · omega
    · rw [if_neg hl]
      by_cases hz : p = 0
      · subst hz
        rw [if_pos rfl, htk 0, if_neg hp]
        rfl
      · rw [if_neg hz, htk p, if_neg hp]

theorem sliceContent_mem_decomp {bs : List RawBlock} {e : Nat} {B : BNode}
    (hB : B ∈ sliceContent (linkBlocks bs) 0 e) :
    ∃ p, p < min e bs.length ∧ B = sliceTweak bs e p := by
  obtain ⟨p, hp⟩ := List.mem_iff_getElem?.mp hB
  rw [sliceContent_zero_getElem?] at hp
  split at hp
  · next h =>
      simp only [Option.some.injEq] at hp
      exact ⟨p, h, hp.symm⟩
  · cases hp

theorem mkNode_prev0_inv {bs : List RawBlock} {i j : Nat}
    (h : (mkNode bs j).prev0 = some i) : i = j - 1 ∧ j ≠ 0 := by
  unfold mkNode at h
  dsimp only at h
  split at h
  · cases h
  · next hc => simp only [Option.some.injEq] at h; omega

theorem mkNode_prev1_inv {bs : List RawBlock} {i j : Nat}
    (h : (mkNode bs j).prev1 = some i) : i = j - 1 ∧ j ≠ 0 := by
  unfold mkNode at h
  dsimp only at h
  split at h
  · next hc => simp only [Option.some.injEq] at h; exact ⟨h.symm, hc.1⟩
  · cases h

theorem mkNode_prev2_inv {bs : List RawBlock} {i j : Nat}
    (h : (mkNode bs j).prev2 = some i) : i = j - 1 ∧ j ≠ 0 := by
  unfold mkNode at h
  dsimp only at h
  split at h
  · next hc => simp only [Option.some.injEq] at h; exact ⟨h.symm, hc.1⟩
  · cases h

theorem sliceTweak_next0 (bs : List RawBlock) (e p : Nat) :
    (sliceTweak bs e p).next0 =
      if p + 1 = min e bs.length then none else (mkNode bs p).next0 := by
  unfold sliceTweak
  split
  · rfl
  · split <;> rfl

theorem sliceTweak_next1 (bs : List RawBlock) (e p : Nat) :
    (sliceTweak bs e p).next1 =
      if p + 1 = min e bs.length then none else (mkNode bs p).next1 := by
  unfold sliceTweak
  split
  · rfl
  · split <;> rfl

theorem sliceTweak_next2 (bs : List RawBlock) (e p : Nat) :
    (sliceTweak bs e p).next2 =
      if p + 1 = min e bs.length then none else (mkNode bs p).next2 := by
  unfold sliceTweak
  split
  · rfl
  · split <;> rfl

theorem sliceTweak_prev0 (bs : List RawBlock) (e p : Nat) :
    (sliceTweak bs e p).prev0 = if p = 0 then none else (mkNode bs p).prev0 := by
  unfold sliceTweak
  split <;> split <;> rfl

theorem sliceTweak_prev1 (bs : List RawBlock) (e p : Nat) :
    (sliceTweak bs e p).prev1 = if p = 0 then none else (mkNode bs p).prev1 := by
  unfold sliceTweak
  split <;> split <;> rfl

theorem sliceTweak_prev2 (bs : List RawBlock) (e p : Nat) :
    (sliceTweak bs e p).prev2 = if p = 0 then none else (mkNode bs p).prev2 := by
  unfold sliceTweak
  split <;> split <;> rfl

/-- The link-shape properties of a pair of nodes of a sliced content: clearing
the first node's prev pointers and the last node's next pointers preserves the
subset and symmetry invariants. -/
theorem sliceTweak_pair_props {bs : List RawBlock} {e p q : Nat}
    (hp : p < min e bs.length) (hq : q < min e bs.length) :
    (((sliceTweak bs e p).next1 = some q → (sliceTweak bs e p).next0 = some q) ∧
     ((sliceTweak bs e p).next2 = some q → (sliceTweak bs e p).next0 = some q)) ∧
    (((sliceTweak bs e p).next0 = some q ↔ (sliceTweak bs e q).prev0 = some p) ∧
     ((sliceTweak bs e p).next1 = some q ↔ (sliceTweak bs e q).prev1 = some p) ∧
     ((sliceTweak bs e p).next2 = some q ↔ (sliceTweak bs e q).prev2 = some p)) := by
  have hpl : p < bs.length := by omega
  have hql : q < bs.length := by omega
  obtain ⟨⟨hs1, hs2⟩, hsym0, hsym1, hsym2⟩ := mkNode_pair_props hpl hql
  have hn0 := sliceTweak_next0 bs e p
  have hn1 := sliceTweak_next1 bs e p
  have hn2 := sliceTweak_next2 bs e p
  have hq0 := sliceTweak_prev0 bs e q
  have hq1 := sliceTweak_prev1 bs e q
  have hq2 := sliceTweak_prev2 bs e q
  by_cases hl : p + 1 = min e bs.length
  · rw [if_pos hl] at hn0 hn1 hn2
    by_cases hz : q = 0
    · rw [if_pos hz] at hq0 hq1 hq2
      rw [hn0, hn1, hn2, hq0, hq1, hq2]
      simp
    · rw [if_neg hz] at hq0 hq1 hq2
      rw [hn0, hn1, hn2, hq0, hq1, hq2]
      have hc0 : ¬ (mkNode bs q).prev0 = some p := fun h => by
        obtain ⟨h1, h2⟩ := mkNode_prev0_inv h; omega
      have hc1 : ¬ (mkNode bs q).prev1 = some p := fun h => by
        obtain ⟨h1, h2⟩ := mkNode_prev1_inv h; omega
      have hc2 : ¬ (mkNode bs q).prev2 = some p := fun h => by
        obtain ⟨h1, h2⟩ := mkNode_prev2_inv h; omega
      exact ⟨⟨fun h => h, fun h => h⟩,
        ⟨fun h => Option.noConfusion h, fun h => absurd h hc0⟩,
        ⟨fun h => Option.noConfusion h, fun h => absurd h hc1⟩,
        ⟨fun h => Option.noConfusion h, fun h => absurd h hc2⟩⟩
  · rw [if_neg hl] at hn0 hn1 hn2
    by_cases hz : q = 0
    · rw [if_pos hz] at hq0 hq1 hq2
      rw [hn0, hn1, hn2, hq0, hq1, hq2]
      subst hz
      have hd0 : ¬ (mkNode bs p).next0 = some 0 := fun h => by
        obtain ⟨h1, h2⟩ := mkNode_next0_inv h; omega
      have hd1 : ¬ (mkNode bs p).next1 = some 0 := fun h => by
        obtain ⟨h1, h2⟩ := mkNode_next1_inv h; omega
      have hd2 : ¬ (mkNode bs p).next2 = some 0 := fun h => by
        obtain ⟨h1, h2⟩ := mkNode_next2_inv h; omega
      exact ⟨⟨hs1, hs2⟩,
        ⟨fun h => absurd h hd0, fun h => Option.noConfusion h⟩,
        ⟨fun h => absurd h hd1, fun h => Option.noConfusion h⟩,
        ⟨fun h => absurd h hd2, fun h => Option.noConfusion h⟩⟩
    · rw [if_neg hz] at hq0 hq1 hq2
      rw [hn0, hn1, hn2, hq0, hq1, hq2]
      exact ⟨⟨hs1, hs2⟩, hsym0, hsym1, hsym2⟩

/-- C2.  Link invariants of one parse pass: for any two blocks B and C of the
linked content, the level-1 and level-2 next links are a subset of level-0
adjacency (B.next(1) = C or B.next(2) = C implies B.next(0) = C), every level
is symmetric (B.next(l) = C iff C.prev(l) = B), and both properties still hold
between any two blocks of the content truncated by sliceContent as the stop
directive does (slice from 0 with the first block's prev pointers and the last
kept block's next pointers nulled out). -/
theorem c2_link_invariants (bs : List RawBlock) (e : Nat) :
    (∀ B ∈ linkBlocks bs, ∀ C ∈ linkBlocks bs,
       ((B.next1 = some C.idx → B.next0 = some C.idx) ∧
        (B.next2 = some C.idx → B.next0 = some C.idx)) ∧
       ((B.next0 = some C.idx ↔ C.prev0 = some B.idx) ∧
        (B.next1 = some C.idx ↔ C.prev1 = some B.idx) ∧
        (B.next2 = some C.idx ↔ C.prev2 = some B.idx))) ∧
    (∀ B ∈ sliceContent (linkBlocks bs) 0 e, ∀ C ∈ sliceContent (linkBlocks bs) 0 e,
       ((B.next1 = some C.idx → B.next0 = some C.idx) ∧
        (B.next2 = some C.idx → B.next0 = some C.idx)) ∧
       ((B.next0 = some C.idx ↔ C.prev0 = some B.idx) ∧
        (B.next1 = some C.idx ↔ C.prev1 = some B.idx) ∧
        (B.next2 = some C.idx ↔ C.prev2 = some B.idx))) := by
  constructor
  · intro B hB C hC
    obtain ⟨i, hi, rfl⟩ := linkBlocks_mem_decomp hB
    obtain ⟨j, hj, rfl⟩ := linkBlocks_mem_decomp hC
    rw [mkNode_idx, mkNode_idx]
    exact mkNode_pair_props hi hj
  · intro B hB C hC
    obtain ⟨p, hp, rfl⟩ := sliceContent_mem_decomp hB
    obtain ⟨q, hq, rfl⟩ := sliceContent_mem_decomp hC
    rw [sliceTweak_idx, sliceTweak_idx]
    exact sliceTweak_pair_props hp hq

/-- The parsed blocks of the input "// a comment\nconst x = 1;\n": a comment
line followed immediately (no blank row) by a variable declaration. -/
def c2bs : List RawBlock := loadCode ("// a comment\nconst x = 1;\n".toList) 1

/-- C2 witness: the link invariants applied to the two linked blocks parsed
from a concrete input, together with the concrete value of the level-1 link
they constrain. -/
theorem c2_witness :
    mkNode c2bs 0 ∈ linkBlocks c2bs ∧ mkNode c2bs 1 ∈ linkBlocks c2bs ∧
    (mkNode c2bs 0).next1 = some (mkNode c2bs 1).idx ∧
    ((mkNode c2bs 0).next1 = some (mkNode c2bs 1).idx ↔
      (mkNode c2bs 1).prev1 = some (mkNode c2bs 0).idx) :=
  have h0 : mkNode c2bs 0 ∈ linkBlocks c2bs := by decide
  have h1 : mkNode c2bs 1 ∈ linkBlocks c2bs := by decide
  ⟨h0, h1, by decide,
    ((c2_link_invariants c2bs 2).1 (mkNode c2bs 0) h0 (mkNode c2bs 1) h1).2.2.1⟩

/-!  ## FunctionBlock identifier extraction (codeblock.js FunctionBlock
constructor) and the util.js string helpers it uses -/

/-- util.trim: strip spaces and tabs from both ends. -/
def trimSpTab (s : List Char) : List Char :=
  ((s.dropWhile indentChar).reverse.dropWhile indentChar).reverse

/-- util.deduplicateSpaces: collapse every run of spaces and tabs to a single
space (regex replace of `[ \t]+` by a space). -/
def dedupAux : Bool → List Char → List Char
  | _, [] => []
  | inRun, c :: rest =>
      if indentChar c then
        if inRun then dedupAux true rest else ' ' :: dedupAux true rest
      else c :: dedupAux false rest

def dedupSpaces (s : List Char) : List Char := dedupAux false s

/-- util.clean: trim of deduplicateSpaces. -/
def clean (s : List Char) : List Char := trimSpTab (dedupSpaces s)

/-- JS String.split(","): split at every comma, keeping empty fields. -/
def splitComma : List Char → List (List Char)
  | [] => [[]]
  | c :: rest =>
      match splitComma rest with
      | [] => [[]]
      | h :: t => if c = ',' then [] :: h :: t else (c :: h) :: t

/-- First match of the regex `\(.*\)` in a string: at the first `(` whose line
still holds a `)` further right, the match runs (greedily) to the last `)` of
that line; `.` does not cross a newline. -/
def arglistMatch : List Char → Option (List Char)
  | [] => none
  | c :: rest =>
      if c = '(' then
        match lastIdxOf ')' (rest.takeWhile (fun d => !(d == nl))) with
        | some r => some ('(' :: (rest.takeWhile (fun d => !(d == nl))).take (r + 1))
        | none => arglistMatch rest
      else arglistMatch rest

/-- JS String.replace with a plain-string pattern: replace the first
occurrence only. -/
def replaceFirstSub (s pat repl : List Char) : List Char :=
  match idxOfSub pat s with
  | some i => s.take i ++ repl ++ s.drop (i + pat.length)
  | none => s

/-- Match `function( |$)` at the current position: on success return the rest
of the string after the match (the trailing space, when present, is consumed
by the match). -/
def checkFun (t : List Char) : Option (List Char) :=
  match stripPre ("function".toList) t with
  | none => none
  | some r =>
      match r with
      | [] => some []
      | d :: r2 => if d = ' ' then some r2 else none

/-- Global regex replace of `(( |^)function( |$)|=)` by the empty string, as
in the FunctionBlock constructor; `atStart` tracks whether the scan is still
at position 0 (where `^` can match). -/
def replFunEqAux : Nat → Bool → List Char → List Char
  | 0, _, s => s
  | _ + 1, _, [] => []
  | fuel + 1, atStart, c :: rest =>
      if atStart then
        match checkFun (c :: rest) with
        | some r => replFunEqAux fuel false r
        | none =>
            if c = '=' then replFunEqAux fuel false rest
            else if c = ' ' then
              match checkFun rest with
              | some r => replFunEqAux fuel false r
              | none => c :: replFunEqAux fuel false rest
            else c :: replFunEqAux fuel false rest
      else
        if c = '=' then replFunEqAux fuel false rest
        else if c = ' ' then
          match checkFun rest with
          | some r => replFunEqAux fuel false r
          | none => c :: replFunEqAux fuel false rest
        else c :: replFunEqAux fuel false rest

/-- Match of `^(const|var|let) `: the matched text, including its trailing
space. -/
def declKw (s : List Char) : Option (List Char) :=
  match stripPre ("const ".toList) s with
  | some _ => some ("const ".toList)
  | none =>
      match stripPre ("var ".toList) s with
      | some _ => some ("var ".toList)
      | none =>
          match stripPre ("let ".toList) s with
          | some _ => some ("let ".toList)
          | none => none

/-- The identifier data the FunctionBlock constructor extracts from a block's
content: name, declaration type and argument list.  Returns none when the
cleaned header holds no `(...)` arglist (the JS code would throw a TypeError
on `match(...)[0]` there). -/
def funData (s : List Char) : Option (List Char × List Char × List (List Char)) :=
  let header0 := match firstIdxOf lbrace s with
    | some k => s.take k
    | none => s.dropLast
  let header := clean header0
  match arglistMatch header with
  | none => none
  | some al =>
      let header1 := replaceFirstSub header al [' ']
      let inner := trimSpTab ((al.drop 1).dropLast)
      let ty := match declKw header1 with
        | some kw => kw
        | none => "none".toList
      let header2 := match declKw header1 with
        | some kw => header1.drop kw.length
        | none => header1
      let name := clean (replFunEqAux header2.length true header2)
      let args := if inner.isEmpty then [] else (splitComma inner).map trimSpTab
      some (name, ty, args)

/-- The exact input of the claim's scenario (no trailing newline). -/
def c3exact : List Char := "/* doc */\n\nfunction foo(a,b)\x7breturn a+b;\x7d".toList

/-- The scenario input with a trailing newline added. -/
def c3nl : List Char := "/* doc */\n\nfunction foo(a,b)\x7breturn a+b;\x7d\n".toList

/-- An input whose middle block is an isolated comment. -/
def c3iso : List Char := "var x = 1;\n// c\n\nvar y = 2;\n".toList

/-- C3, counterexample to the claim as stated: parsing the claim's exact
scenario input, the comment block is isolated (one blank row after it) yet its
level-2 next link IS set (loadCode suppresses the level-2 link INTO an
isolated comment, i.e. the predecessor's next, not the comment's own next),
and the second block is classified unknown, not as a function declaration (the
function lacks a trailing newline, so the classifier's minified-input
quick-fix fires before FUN_DECLARATION is tried). -/
theorem c3_counterexample :
    isCommentInstance ((loadCode c3exact 1).getD 0 defaultRaw) = true ∧
    0 < ((loadCode c3exact 1).getD 0 defaultRaw).rowsAfter ∧
    (mkNode (loadCode c3exact 1) 0).next2 = some 1 ∧
    ((loadCode c3exact 1).getD 1 defaultRaw).btype = "unknown" := by
  refine ⟨by decide, by decide, by decide, by decide⟩

/-- C3, amended.  The section break caused by an isolated comment (a comment
block with at least one blank row after it) cuts the level-2 link from its
PREDECESSOR into the comment: the predecessor's level-2 next and the comment's
level-2 prev are none, while level-0 adjacency between them is unaffected.
The isolated comment's own level-2 next link to the block that follows it is
NOT suppressed: it is set like any other pair's.  In the claim's scenario
(with a trailing newline so that the function is classifiable) the parse
yields a comment block then a function declaration named foo with arguments
a and b, linked at level 0, not linked at level 1 (a blank row precedes the
function), and linked at level 2. -/
theorem c3_section_break :
    (∀ (bs : List RawBlock) (i : Nat), i + 1 < bs.length →
       isCommentInstance (bs.getD (i + 1) defaultRaw) = true →
       0 < (bs.getD (i + 1) defaultRaw).rowsAfter →
       (mkNode bs i).next2 = none ∧ (mkNode bs (i + 1)).prev2 = none ∧
       (mkNode bs i).next0 = some (i + 1) ∧ (mkNode bs (i + 1)).prev0 = some i) ∧
    (∀ (bs : List RawBlock) (i : Nat), i + 1 < bs.length →
       linkCond2 (bs.getD (i + 1) defaultRaw) = true →
       (mkNode bs i).next2 = some (i + 1)) ∧
    ((loadCode c3nl 1).map (fun b => b.btype) = ["commentBlock", "funDeclaration"] ∧
     funData ((loadCode c3nl 1).getD 1 defaultRaw).content =
       some ("foo".toList, "none".toList, ["a".toList, "b".toList]) ∧
     (mkNode (loadCode c3nl 1) 0).next0 = some 1 ∧
     (mkNode (loadCode c3nl 1) 0).next1 = none ∧
     (mkNode (loadCode c3nl 1) 0).next2 = some 1) := by
  refine ⟨?_, ?_, by decide, by decide, by decide, by decide, by decide⟩
  · intro bs i h1 h2 h3
    have hc : linkCond2 (bs.getD (i + 1) defaultRaw) = false := by
      unfold linkCond2
      rw [h2]
      simp only [Bool.true_and, Bool.not_eq_false', decide_eq_true_eq]
      exact h3
    refine ⟨?_, ?_, ?_, ?_⟩
    · unfold mkNode
      dsimp only
      rw [if_neg (fun hx => by rw [hc] at hx; cases hx.2)]
    · unfold mkNode
      dsimp only
      rw [if_neg (fun hx => by rw [hc] at hx; cases hx.2)]
    · unfold mkNode
      dsimp only
      rw [if_pos h1]
    · unfold mkNode
      dsimp only
      rw [if_neg (by omega : ¬ i + 1 = 0)]
      simp
  · intro bs i h1 h2
    unfold mkNode
    dsimp only
    rw [if_pos ⟨h1, h2⟩]

/-- C3 witness: the amended section-break rule applied at a concrete parse
whose middle block is an isolated comment. -/
theorem c3_witness :
    (isCommentInstance ((loadCode c3iso 1).getD 1 defaultRaw) = true ∧
     0 < ((loadCode c3iso 1).getD 1 defaultRaw).rowsAfter) ∧
    ((mkNode (loadCode c3iso 1) 0).next2 = none ∧
     (mkNode (loadCode c3iso 1) 1).prev2 = none ∧
     (mkNode (loadCode c3iso 1) 0).next0 = some 1 ∧
     (mkNode (loadCode c3iso 1) 1).prev0 = some 0) :=
  ⟨⟨by decide, by decide⟩,
    c3_section_break.1 (loadCode c3iso 1) 0 (by decide) (by decide) (by decide)⟩

/-!  ## Comment-line runs (C5) -/

/-- Two comment lines separated by a blank line. -/
def c5in : List Char := "// a\n\n// b\nx\n".toList

/-- Two comment lines separated by a non-blank non-comment line. -/
def c5split : List Char := "// a\nx\n// b\n".toList

/-- C5, counterexample to the claim as stated: two comment lines separated by
a blank line fall into the SAME commentLine block, because COMMENT_LINE's
leading `[ \t\n]*` absorbs blank lines and getCommentLineMeta keeps looping
over every suffix that still matches it.  The parse of "// a\n\n// b\nx\n"
holds one commentLine block whose content spans both comment lines and the
blank line between them. -/
theorem c5_counterexample :
    (loadCode c5in 1).map (fun b => b.btype) = ["commentLine", "unknown"] ∧
    ((loadCode c5in 1).getD 0 defaultRaw).content = "// a\n\n// b".toList := by
  exact ⟨by decide, by decide⟩

/-- C5, amended.  The comment-line run is maximal — consumption stops exactly
at the first remaining cursor that no longer matches COMMENT_LINE — but a
"non-comment line" only stops the run when it is not blank: blank lines are
absorbed into the run by the `[ \t\n]*` prefix of COMMENT_LINE, so two comment
lines separated by a blank line share one block (first concrete parse), while
a non-blank non-comment line does split the run into two blocks (second
concrete parse). -/
theorem c5_comment_runs :
    (∀ (fuel : Nat) (s : List Char), s.length ≤ fuel →
       matchCommentLine (s.drop (commentRunLen fuel s)) = false) ∧
    ((loadCode c5in 1).map (fun b => (b.btype, b.content)) =
       [("commentLine", "// a\n\n// b".toList), ("unknown", ['x'])]) ∧
    ((loadCode c5split 1).map (fun b => (b.btype, b.content)) =
       [("commentLine", "// a".toList), ("unknown", ['x']),
        ("commentLine", "// b".toList)]) := by
  refine ⟨?_, by decide, by decide⟩
  intro fuel
  induction fuel with
  | zero =>
      intro s h
      have hs : s = [] := List.eq_nil_of_length_eq_zero (by omega)
      subst hs
      decide
  | succ fuel ih =>
      intro s h
      unfold commentRunLen
      by_cases hm : matchCommentLine s = true
      · rw [if_pos hm]
        obtain ⟨i, hi⟩ := contains_firstIdxOf (matchCommentLine_contains_nl hm)
        rw [hi]
        have hlt : i < s.length := firstIdxOf_lt hi
        have hdd : s.drop (i + 1 + commentRunLen fuel (s.drop (i + 1))) =
            (s.drop (i + 1)).drop (commentRunLen fuel (s.drop (i + 1))) := by
          rw [List.drop_drop]
          try congr 1
          try omega
        rw [hdd]
        exact ih (s.drop (i + 1)) (by rw [List.length_drop]; omega)
      · rw [if_neg hm]
        simpa using hm

/-- C5 witness: maximality of the comment-line run applied to a concrete
input. -/
theorem c5_witness :
    c5in.length ≤ 13 ∧
    matchCommentLine (c5in.drop (commentRunLen 13 c5in)) = false :=
  ⟨by decide, c5_comment_runs.1 13 c5in (by decide)⟩

/-!  ## Alias and export state of a CodeBlock (C8) -/

/-- The two CodeBlock fields the alias/export handlers write. -/
structure AliasState where
  aliases : List String
  exportedName : String
deriving Repr, DecidableEq

/-- CodeBlock.addAlias (lines 1184-1189): refuse an alias already in the
list (returning false), else append it (returning true). -/
def addAlias (st : AliasState) (a : String) : AliasState × Bool :=
  if st.aliases.contains a then (st, false)
  else ({ st with aliases := st.aliases ++ [a] }, true)

/-- CodeBlock.setExportedName (lines 1158-1160): plain overwrite. -/
def setExportedName (st : AliasState) (n : String) : AliasState :=
  { st with exportedName := n }

/-- C8.  Idempotence of the alias/export writes: a second addAlias with the
same name is refused (it returns false and leaves the whole state, hence the
alias-list length, unchanged), and a second setExportedName with the same
name leaves the same exportedName. -/
theorem c8_idempotence (st : AliasState) (a n : String) :
    (addAlias (addAlias st a).1 a).1.aliases.length = (addAlias st a).1.aliases.length ∧
    (addAlias (addAlias st a).1 a).1 = (addAlias st a).1 ∧
    (addAlias (addAlias st a).1 a).2 = false ∧
    setExportedName (setExportedName st n) n = setExportedName st n := by
  have hmem : (addAlias st a).1.aliases.contains a = true := by
    unfold addAlias
    by_cases h : st.aliases.contains a
    · rw [if_pos h]
      exact h
    · rw [if_neg h]
      dsimp only
      simp
  have hgen : ∀ st2 : AliasState, st2.aliases.contains a = true →
      addAlias st2 a = (st2, false) := by
    intro st2 h
    unfold addAlias
    rw [if_pos h]
  have h2 : addAlias (addAlias st a).1 a = ((addAlias st a).1, false) :=
    hgen (addAlias st a).1 hmem
  exact ⟨by rw [h2], by rw [h2], by rw [h2], rfl⟩

/-!  ## Directive handlers (directive.js) and the engine dispatch (C7) -/

/-- A JS exception escaping a directive handler: an explicit
`throw new Error(...)` or a runtime TypeError from calling a method on null. -/
inductive JsError where
  | err : String → JsError
  | typeError : String → JsError
deriving Repr, DecidableEq

/-- The state a directive run can change, restricted to what the alias and
export handlers write: the collected diagnostics, the unit's exported name,
and each block's alias/export state keyed by a block id. -/
structure DState where
  diags : List String
  unitExported : Option String
  store : List (Nat × AliasState)
deriving Repr, DecidableEq

/-- Execution context of a handler: the unit path and the comment's starting
row used by _logError, and the unit's block resolution
(CodeUnit.getBlockByPath), abstracted to the id of the resolved block. -/
structure DEnv where
  unitPath : String
  row : Nat
  resolve : List String → Option Nat

/-- directive.js _logError: the diagnostic line for a directive error,
carrying the unit path and the comment's starting row. -/
def logError (msg : String) (env : DEnv) : String :=
  "Directive error: " ++ msg ++ " [ " ++ env.unitPath ++ ":" ++ toString env.row ++ " ]"

def pushDiag (st : DState) (d : String) : DState :=
  { st with diags := st.diags ++ [d] }

/-- Split a string at every occurrence of a separator character, keeping
empty fields (JS String.split with a one-character separator). -/
def splitCharSep (sep : Char) : List Char → List (List Char)
  | [] => [[]]
  | c :: rest =>
      match splitCharSep sep rest with
      | [] => [[]]
      | h :: t => if c = sep then [] :: h :: t else (c :: h) :: t

/-- target.split("."). -/
def splitDot (s : String) : List String :=
  (splitCharSep '.' s.toList).map (fun l => String.mk l)

/-- PATTERN_GENERIC = `\{.+\}`: the argument holds a placeholder expression —
an opening brace, at least one character, and a closing brace on the same
line. -/
def hasGeneric : List Char → Bool
  | [] => false
  | c :: rest =>
      (c == lbrace && ((rest.takeWhile (fun d => !(d == nl))).drop 1).contains rbrace)
      || hasGeneric rest

/-- directive.js _expandArgs with its fast path modelled exactly: when no
argument holds a placeholder it returns [args] untouched; the placeholder
path (which walks the target's level-1 chain and substitutes assignment
data) is abstracted as the explicitly supplied expansion `exp`. -/
def expandArgs (exp : List (List String)) (args : List String) : List (List String) :=
  if args.any (fun a => hasGeneric a.toList) then exp else [args]

/-- _aliasNext (alias with one argument): reports when there is no target
code block, throws "not implemented" when there is one. -/
def aliasNext (cb : Option Nat) (env : DEnv) (st : DState) : Except JsError DState :=
  match cb with
  | none => .ok (pushDiag st (logError "alias directive cannot be applied to code unit" env))
  | some _ => .error (.err "not implemented")

/-- Apply addAlias to the block with the given id. -/
def storeAddAlias (store : List (Nat × AliasState)) (i : Nat) (a : String) :
    List (Nat × AliasState) :=
  store.map (fun p => if p.1 = i then (p.1, (addAlias p.2 a).1) else p)

/-- Apply setExportedName to the block with the given id. -/
def storeSetExported (store : List (Nat × AliasState)) (i : Nat) (n : String) :
    List (Nat × AliasState) :=
  store.map (fun p => if p.1 = i then (p.1, setExportedName p.2 n) else p)

/-- The for-loop of _aliasSpecific: resolve each expanded pair's target path
and add the alias; on an unresolvable path targetBlock is null and the
addAlias call on it throws a TypeError. -/
def aliasSpecificLoop (env : DEnv) : List (List String) → DState → Except JsError DState
  | [], st => .ok st
  | e :: rest, st =>
      match env.resolve (splitDot (e.getD 0 "")) with
      | none => .error (.typeError "null has no method addAlias")
      | some i =>
          aliasSpecificLoop env rest
            { st with store := storeAddAlias st.store i (e.getD 1 "") }

/-- _aliasSpecific (alias with two arguments). -/
def aliasSpecific (exp : List (List String)) (env : DEnv) (args : List String)
    (st : DState) : Except JsError DState :=
  let expanded := expandArgs exp args
  let st1 := if expanded.length = 0 then
      pushDiag st (logError "Expression expansion did not find any matching code" env)
    else st
  aliasSpecificLoop env expanded st1

/-- _alias: dispatch on argument count. -/
def aliasDir (exp : List (List String)) (env : DEnv) (cb : Option Nat)
    (args : List String) (st : DState) : Except JsError DState :=
  if args.length = 1 then aliasNext cb env st
  else if args.length = 2 then aliasSpecific exp env args st
  else .ok (pushDiag st (logError
    ("Bad argument count for alias, expected 1 or 2, got " ++ toString args.length) env))

/-- _exportNext (export with one argument): with no target code block it sets
the unit's exported name; with a target it throws "not implemented". -/
def exportNext (cb : Option Nat) (args : List String) (st : DState) :
    Except JsError DState :=
  match cb with
  | none => .ok { st with unitExported := some (args.getD 0 "") }
  | some _ => .error (.err "not implemented")

/-- The for-loop of _exportSpecific; like _aliasSpecific it calls a method on
the possibly-null resolved block without a null check. -/
def exportSpecificLoop (env : DEnv) : List (List String) → DState → Except JsError DState
  | [], st => .ok st
  | e :: rest, st =>
      match env.resolve (splitDot (e.getD 0 "")) with
      | none => .error (.typeError "null has no method setExportedName")
      | some i =>
          exportSpecificLoop env rest
            { st with store := storeSetExported st.store i (e.getD 1 "") }

/-- _exportSpecific (export with two arguments). -/
def exportSpecific (exp : List (List String)) (env : DEnv) (args : List String)
    (st : DState) : Except JsError DState :=
  let expanded := expandArgs exp args
  let st1 := if expanded.length = 0 then
      pushDiag st (logError "Expression expansion did not find any matching code" env)
    else st
  exportSpecificLoop env expanded st1

/-- _export: dispatch on argument count. -/
def exportDir (exp : List (List String)) (env : DEnv) (cb : Option Nat)
    (args : List String) (st : DState) : Except JsError DState :=
  if args.length = 1 then exportNext cb args st
  else if args.length = 2 then exportSpecific exp env args st
  else .ok (pushDiag st (logError
    ("Bad argument count for export, expected 1 or 2, got " ++ toString args.length) env))

/-- The verbs for which the directive module exports a function (the engine's
`directive[dir.verb] instanceof Function` test); the module also exports its
_logError helper, which the test therefore accepts as a handler. -/
def dirHasHandler (verb : String) : Bool :=
  verb == "_logError" || verb == "alias" || verb == "assign" || verb == "export" ||
  verb == "parse" || verb == "pattern" || verb == "stop"

/-- One directive application as the engine's map body performs it: alias and
export run the handlers above; parse and stop have no-op handlers (the engine
reacts to them through its flags); assign, pattern and the accidentally
dispatchable _logError touch only unit metadata outside the state tracked
here and never throw, so they are modelled as no-ops on it; an unknown verb
is reported and skipped. -/
def dispatchDirective (exp : List (List String)) (env : DEnv) (cb : Option Nat)
    (verb : String) (args : List String) (st : DState) : Except JsError DState :=
  if verb == "alias" then aliasDir exp env cb args st
  else if verb == "export" then exportDir exp env cb args st
  else if dirHasHandler verb then .ok st
  else .ok (pushDiag st (logError ("Unknown directive " ++ verb) env))

/-- The engine's `directives.map` over one comment's directive list; the
engine has no try/catch, so a thrown exception aborts the rest of the list
and propagates. -/
def runDirList (exp : List (List String)) (env : DEnv) (cb : Option Nat) :
    List (String × List String) → DState → Except JsError DState
  | [], st => .ok st
  | d :: rest, st =>
      match dispatchDirective exp env cb d.1 d.2 st with
      | .ok st2 => runDirList exp env cb rest st2
      | .error e => .error e

/-- A unit in which no path resolves. -/
def c7env : DEnv := ⟨"lib/a.js", 3, fun _ => none⟩

def c7st : DState := ⟨[], none, [(0, ⟨[], "x"⟩)]⟩

/-- C7, counterexample to the claim as stated: `alias <altName>` with one
argument and a target code block present throws "not implemented" instead of
reporting; `alias <what> <altName>` with an unresolvable path throws a
TypeError (the null result of getBlockByPath is not checked before calling
addAlias on it); and because the engine has no try/catch, the throw aborts
the following directives of the comment too (the export directive after the
alias is never run), not just the one failing directive. -/
theorem c7_counterexample :
    aliasDir [] c7env (some 1) ["helper"] c7st = .error (.err "not implemented") ∧
    aliasDir [] c7env (some 1) ["missing.path", "helper"] c7st =
      .error (.typeError "null has no method addAlias") ∧
    runDirList [] c7env (some 1)
      [("alias", ["helper"]), ("export", ["h2"])] c7st = .error (.err "not implemented") := by
  exact ⟨rfl, rfl, rfl⟩

/-- C7, amended.  The actual error behaviour of directive processing: an
unknown verb is reported as a diagnostic carrying the unit path and source
row and the directive is skipped; a wrong argument count for alias or export
is likewise reported, not thrown; alias with one argument reports when there
is no target block but THROWS "not implemented" when there is one; alias with
two placeholder-free arguments THROWS a TypeError when the target path does
not resolve and adds the alias when it does; export with one argument sets
the unit's exported name when there is no target block and throws when there
is one; a directive that completes lets the rest of the list continue
normally on the updated state, while a thrown error aborts the whole rest of
the list. -/
theorem c7_directive_errors :
    (∀ (exp : List (List String)) (env : DEnv) (cb : Option Nat) (verb : String)
       (args : List String) (st : DState), dirHasHandler verb = false →
       dispatchDirective exp env cb verb args st =
         .ok (pushDiag st (logError ("Unknown directive " ++ verb) env))) ∧
    (∀ (exp : List (List String)) (env : DEnv) (cb : Option Nat)
       (args : List String) (st : DState), args.length ≠ 1 → args.length ≠ 2 →
       aliasDir exp env cb args st = .ok (pushDiag st (logError
         ("Bad argument count for alias, expected 1 or 2, got " ++ toString args.length) env)) ∧
       exportDir exp env cb args st = .ok (pushDiag st (logError
         ("Bad argument count for export, expected 1 or 2, got " ++ toString args.length) env))) ∧
    (∀ (exp : List (List String)) (env : DEnv) (a : String) (st : DState),
       aliasDir exp env none [a] st =
         .ok (pushDiag st (logError "alias directive cannot be applied to code unit" env)) ∧
       ∀ i, aliasDir exp env (some i) [a] st = .error (.err "not implemented")) ∧
    (∀ (exp : List (List String)) (env : DEnv) (cb : Option Nat) (st : DState)
       (t n : String), hasGeneric t.toList = false → hasGeneric n.toList = false →
       (env.resolve (splitDot t) = none →
         aliasDir exp env cb [t, n] st = .error (.typeError "null has no method addAlias")) ∧
       (∀ i, env.resolve (splitDot t) = some i →
         aliasDir exp env cb [t, n] st =
           .ok { st with store := storeAddAlias st.store i n })) ∧
    (∀ (exp : List (List String)) (env : DEnv) (a : String) (st : DState),
       exportDir exp env none [a] st = .ok { st with unitExported := some a } ∧
       ∀ i, exportDir exp env (some i) [a] st = .error (.err "not implemented")) ∧
    (∀ (exp : List (List String)) (env : DEnv) (cb : Option Nat) (v : String)
       (a : List String) (rest : List (String × List String)) (st st2 : DState),
       dispatchDirective exp env cb v a st = .ok st2 →
       runDirList exp env cb ((v, a) :: rest) st = runDirList exp env cb rest st2) ∧
    (∀ (exp : List (List String)) (env : DEnv) (cb : Option Nat) (v : String)
       (a : List String) (rest : List (String × List String)) (st : DState)
       (e : JsError),
       dispatchDirective exp env cb v a st = .error e →
       runDirList exp env cb ((v, a) :: rest) st = .error e) := by
  refine ⟨?_, ?_, ?_, ?_, ?_, ?_, ?_⟩
  · intro exp env cb verb args st h
    have h2 := h
    unfold dirHasHandler at h2
    simp only [Bool.or_eq_false_iff] at h2
    obtain ⟨⟨⟨⟨⟨⟨hlog, hal⟩, has⟩, hex⟩, hpa⟩, hpt⟩, hst⟩ := h2
    unfold dispatchDirective
    rw [if_neg (by simp [hal]), if_neg (by simp [hex]), if_neg (by simp [h])]
  · intro exp env cb args st h1 h2
    constructor
    · unfold aliasDir
      rw [if_neg h1, if_neg h2]
    · unfold exportDir
      rw [if_neg h1, if_neg h2]
  · intro exp env a st
    exact ⟨rfl, fun i => rfl⟩
  · intro exp env cb st t n ht hn
    have hany : ([t, n].any (fun a => hasGeneric a.toList)) = false := by
      simp only [List.any_cons, List.any_nil, Bool.or_false]
      rw [ht, hn]
      rfl
    have hfast : expandArgs exp [t, n] = [[t, n]] := by
      unfold expandArgs
      rw [if_neg (by rw [hany]; simp)]
    constructor
    · intro hres
      unfold aliasDir
      rw [if_neg (by simp), if_pos (by simp)]
      unfold aliasSpecific
      rw [hfast]
      simp only [List.length_cons, List.length_nil]
      rw [if_neg (by omega)]
      unfold aliasSpecificLoop
      simp only [List.getD_cons_zero]
      rw [hres]
    · intro i hres
      unfold aliasDir
      rw [if_neg (by simp), if_pos (by simp)]
      unfold aliasSpecific
      rw [hfast]
      simp only [List.length_cons, List.length_nil]
      rw [if_neg (by omega)]
      unfold aliasSpecificLoop
      simp only [List.getD_cons_zero]
      rw [hres]
      unfold aliasSpecificLoop
      simp
  · intro exp env a st
    exact ⟨rfl, fun i => rfl⟩
  · intro exp env cb v a rest st st2 h
    conv_lhs => unfold runDirList
    rw [h]
  · intro exp env cb v a rest st e h
    conv_lhs => unfold runDirList
    rw [h]

/-- A unit resolving exactly the path ["m"]. -/
def c7env2 : DEnv := ⟨"lib/b.js", 7, fun p => if p = ["m"] then some 0 else none⟩

/-- C7 witness: the amended error behaviour applied at concrete inputs — an
unknown verb's diagnostic, and a resolvable two-argument alias actually
adding its alias. -/
theorem c7_witness :
    dispatchDirective [] c7env2 none "frobnicate" ["z"] c7st =
      .ok (pushDiag c7st (logError "Unknown directive frobnicate" c7env2)) ∧
    aliasDir [] c7env2 (some 1) ["m", "helper"] c7st =
      .ok { c7st with store := storeAddAlias c7st.store 0 "helper" } :=
  ⟨c7_directive_errors.1 [] c7env2 none "frobnicate" ["z"] c7st (by decide),
   (c7_directive_errors.2.2.2.1 [] c7env2 (some 1) c7st "m" "helper"
      (by decide) (by decide)).2 0 rfl⟩

/-!  ## The unit graph and CodeTree.findRoots (C9) -/

/-- util.concatUnique's inner loop: push each element not already present. -/
def cuAux {α : Type} [DecidableEq α] : List α → List α → List α
  | ret, [] => ret
  | ret, x :: rest => if x ∈ ret then cuAux ret rest else cuAux (ret ++ [x]) rest

/-- util.concatUnique on two arrays: their concatenation with every element
kept at its first occurrence only. -/
def concatUnique {α : Type} [DecidableEq α] (a b : List α) : List α := cuAux [] (a ++ b)

/-- The linked unit graph: for each of the n units (identified by insertion
index) its next and prev unit lists, as built by linkNext/linkPrev. -/
structure UGraph (n : Nat) where
  nexts : Fin n → List (Fin n)
  prevs : Fin n → List (Fin n)

/-- CodeUnit.getAllPrev's worklist loop: pop a unit, skip it when already
collected, else collect it and enqueue its prevs. -/
def getAllPrevAux {n : Nat} (g : UGraph n) : Nat → List (Fin n) → List (Fin n) → List (Fin n)
  | 0, _, ret => ret
  | _ + 1, [], ret => ret
  | fuel + 1, u :: rest, ret =>
      if u ∈ ret then getAllPrevAux g fuel rest ret
      else getAllPrevAux g fuel (rest ++ g.prevs u) (ret ++ [u])

/-- CodeUnit.getAllPrev (fuelled): the transitive predecessor set. -/
def getAllPrevF {n : Nat} (g : UGraph n) (fuel : Nat) (u : Fin n) : List (Fin n) :=
  getAllPrevAux g fuel (g.prevs u) []

/-- CodeUnit.getLast's worklist loop: pop a unit, skip it when done, else
mark it done and either record it (no next units) or enqueue its nexts. -/
def getLastAux {n : Nat} (g : UGraph n) :
    Nat → List (Fin n) → List (Fin n) → List (Fin n) → List (Fin n)
  | 0, _, _, ret => ret
  | _ + 1, [], _, ret => ret
  | fuel + 1, u :: rest, done, ret =>
      if u ∈ done then getLastAux g fuel rest done ret
      else if (g.nexts u).isEmpty then getLastAux g fuel rest (done ++ [u]) (ret ++ [u])
      else getLastAux g fuel (rest ++ g.nexts u) (done ++ [u]) ret

/-- CodeUnit.getLast (fuelled): the sinks reachable from u, or [u] when u has
no next units at all. -/
def getLastF {n : Nat} (g : UGraph n) (fuel : Nat) (u : Fin n) : List (Fin n) :=
  if (g.nexts u).isEmpty then [u] else getLastAux g fuel (g.nexts u) [] []

/-- One iteration of findRoots' outer loop on the state (ret, allNodes): take
the first unit not yet in allNodes (none, impossible under the loop guard,
models the crash), collect its getLast roots into ret and allNodes, and add
each root's transitive predecessors to allNodes. -/
def findRootsStep {n : Nat} (g : UGraph n) (glF gpF : Nat)
    (st : List (Fin n) × List (Fin n)) : Option (List (Fin n) × List (Fin n)) :=
  match (List.finRange n).find? (fun u => !(st.2.contains u)) with
  | none => none
  | some u =>
      some (concatUnique st.1 (getLastF g glF u),
        (getLastF g glF u).foldl (fun acc r => concatUnique acc (getAllPrevF g gpF r))
          (concatUnique st.2 (getLastF g glF u)))

/-- CodeTree.findRoots' outer loop (fuelled): loop while allNodes holds fewer
than n units; none means the available fuel was not enough — the JS loop is
still running. -/
def findRootsLoop {n : Nat} (g : UGraph n) (glF gpF : Nat) :
    Nat → List (Fin n) × List (Fin n) → Option (List (Fin n))
  | 0, _ => none
  | fuel + 1, st =>
      if n ≤ st.2.length then some st.1
      else
        match findRootsStep g glF gpF st with
        | none => none
        | some st2 => findRootsLoop g glF gpF fuel st2

/-- CodeTree.findRoots (fuelled). -/
def findRootsF {n : Nat} (g : UGraph n) (glF gpF fuel : Nat) : Option (List (Fin n)) :=
  findRootsLoop g glF gpF fuel ([], [])

/-- A two-unit import cycle: each unit is the other's next and prev. -/
def c9cycle : UGraph 2 :=
  ⟨fun u => if u = 0 then [1] else [0], fun u => if u = 0 then [1] else [0]⟩

/-- A three-unit chain 0 → 1 → 2. -/
def c9chain : UGraph 3 :=
  ⟨fun u => if u = 0 then [1] else if u = 1 then [2] else [],
   fun u => if u = 0 then [] else if u = 1 then [0] else [1]⟩

theorem mem_cuAux {α : Type} [DecidableEq α] :
    ∀ (l ret : List α) (x : α), x ∈ cuAux ret l ↔ x ∈ ret ∨ x ∈ l := by
  intro l
  induction l with
  | nil =>
      intro ret x
      unfold cuAux
      simp
  | cons a rest ih =>
      intro ret x
      unfold cuAux
      by_cases h : a ∈ ret
      · rw [if_pos h, ih]
        constructor
        · rintro (hx | hx)
          · exact Or.inl hx
          · exact Or.inr (List.mem_cons_of_mem a hx)
        · rintro (hx | hx)
          · exact Or.inl hx
          · rcases List.mem_cons.mp hx with hx | hx
            · exact Or.inl (hx ▸ h)
            · exact Or.inr hx
      · rw [if_neg h, ih]
        constructor
        · rintro (hx | hx)
          · rcases List.mem_append.mp hx with hx | hx
            · exact Or.inl hx
            · exact Or.inr (List.mem_cons.mpr (Or.inl (List.mem_singleton.mp hx)))
          · exact Or.inr (List.mem_cons_of_mem a hx)
        · rintro (hx | hx)
          · exact Or.inl (List.mem_append.mpr (Or.inl hx))
          · rcases List.mem_cons.mp hx with hx | hx
            · exact Or.inl (List.mem_append.mpr (Or.inr (List.mem_singleton.mpr hx)))
            · exact Or.inr hx

theorem nodup_cuAux {α : Type} [DecidableEq α] :
    ∀ (l ret : List α), ret.Nodup → (cuAux ret l).Nodup := by
  intro l
  induction l with
  | nil =>
      intro ret h
      unfold cuAux
      exact h
  | cons a rest ih =>
      intro ret h
      unfold cuAux
      by_cases ha : a ∈ ret
      · rw [if_pos ha]
        exact ih ret h
      · rw [if_neg ha]
        refine ih (ret ++ [a]) ?_
        rw [List.nodup_append]
        exact ⟨h, List.nodup_singleton a, by
          intro x hx hx2
          rw [List.mem_singleton] at hx2
          exact ha (hx2 ▸ hx)⟩

theorem mem_concatUnique {α : Type} [DecidableEq α] (a b : List α) (x : α) :
    x ∈ concatUnique a b ↔ x ∈ a ∨ x ∈ b := by
  unfold concatUnique
  rw [mem_cuAux]
  simp

theorem nodup_concatUnique {α : Type} [DecidableEq α] (a b : List α) :
    (concatUnique a b).Nodup :=
  nodup_cuAux (a ++ b) [] List.nodup_nil

theorem mem_foldl_cu {n : Nat} (f : Fin n → List (Fin n)) :
    ∀ (l acc : List (Fin n)) (x : Fin n),
      x ∈ l.foldl (fun acc r => concatUnique acc (f r)) acc ↔
        x ∈ acc ∨ ∃ r ∈ l, x ∈ f r := by
  intro l
  induction l with
  | nil =>
      intro acc x
      simp
  | cons a rest ih =>
      intro acc x
      rw [List.foldl_cons, ih, mem_concatUnique]
      constructor
      · rintro ((hx | hx) | ⟨r, hr, hx⟩)
        · exact Or.inl hx
        · exact Or.inr ⟨a, List.mem_cons_self a rest, hx⟩
        · exact Or.inr ⟨r, List.mem_cons_of_mem a hr, hx⟩
      · rintro (hx | ⟨r, hr, hx⟩)
        · exact Or.inl (Or.inl hx)
        · rcases List.mem_cons.mp hr with hr | hr
          · exact Or.inl (Or.inr (hr ▸ hx))
          · exact Or.inr ⟨r, hr, hx⟩

theorem nodup_foldl_cu {n : Nat} (f : Fin n → List (Fin n)) :
    ∀ (l acc : List (Fin n)), acc.Nodup →
      (l.foldl (fun acc r => concatUnique acc (f r)) acc).Nodup := by
  intro l
  induction l with
  | nil =>
      intro acc h
      exact h
  | cons a rest ih =>
      intro acc h
      rw [List.foldl_cons]
      exact ih _ (nodup_concatUnique _ _)

theorem mem_of_nodup_full {n : Nat} {l : List (Fin n)} (hl : l.Nodup)
    (hlen : n ≤ l.length) (u : Fin n) : u ∈ l := by
  have h1 : l.toFinset.card = l.length := List.toFinset_card_of_nodup hl
  have h2 : l.toFinset = Finset.univ := by
    apply Finset.eq_univ_of_card
    rw [h1]
    have h3 : l.length ≤ Fintype.card (Fin n) := List.Nodup.length_le_card hl
    rw [Fintype.card_fin] at h3 ⊢
    omega
  have h4 : u ∈ l.toFinset := by
    rw [h2]
    exact Finset.mem_univ u
  exact List.mem_toFinset.mp h4

/-- When no unit of the graph is a sink, the getLast worklist never records
anything: it returns its accumulator unchanged at every fuel. -/
theorem getLastAux_no_sink {n : Nat} (g : UGraph n)
    (hs : ∀ u, (g.nexts u).isEmpty = false) :
    ∀ (fuel : Nat) (linked done ret : List (Fin n)),
      getLastAux g fuel linked done ret = ret := by
  intro fuel
  induction fuel with
  | zero =>
      intro linked done ret
      rfl
  | succ fuel ih =>
      intro linked done ret
      cases linked with
      | nil => rfl
      | cons u rest =>
          unfold getLastAux
          by_cases h : u ∈ done
          · rw [if_pos h]
            exact ih rest done ret
          · rw [if_neg h, if_neg (by rw [hs u]; exact fun hh => nomatch hh)]
            exact ih (rest ++ g.nexts u) (done ++ [u]) ret

theorem findRootsStep_cycle (glF gpF : Nat) :
    findRootsStep c9cycle glF gpF ([], []) = some ([], []) := by
  unfold findRootsStep
  have h0 : (List.finRange 2).find? (fun u => !(([] : List (Fin 2)).contains u)) =
      some 0 := rfl
  rw [h0]
  dsimp only
  have hr : getLastF c9cycle glF 0 = [] := by
    unfold getLastF
    rw [if_neg (by decide)]
    exact getLastAux_no_sink c9cycle (by decide) glF _ _ _
  rw [hr]
  rfl

/-- On the two-unit cycle, findRoots never completes at any fuel. -/
theorem findRootsF_cycle_none :
    ∀ (glF gpF fuel : Nat), findRootsF c9cycle glF gpF fuel = none := by
  intro glF gpF fuel
  unfold findRootsF
  induction fuel with
  | zero => rfl
  | succ fuel ih =>
      unfold findRootsLoop
      rw [if_neg (by decide), findRootsStep_cycle]
      exact ih

/-- C9, counterexample to the claim as stated: on a two-unit import cycle the
getLast worklist finds no sink and returns the empty list, so findRoots'
outer loop collects nothing into allNodes and repeats the identical iteration
forever: it has not completed after 9 iterations and still not after 1000. -/
theorem c9_counterexample :
    findRootsF c9cycle 9 9 9 = none ∧ findRootsF c9cycle 9 9 1000 = none :=
  ⟨findRootsF_cycle_none 9 9 9, findRootsF_cycle_none 9 9 1000⟩

/-- The loop invariant behind findRoots' coverage: allNodes stays duplicate
free and every unit in it is a collected root or a transitive predecessor of
one. -/
theorem findRootsLoop_coverage {n : Nat} (g : UGraph n) (glF gpF : Nat) :
    ∀ (fuel : Nat) (st : List (Fin n) × List (Fin n)) (R : List (Fin n)),
      st.2.Nodup →
      (∀ x ∈ st.2, x ∈ st.1 ∨ ∃ r ∈ st.1, x ∈ getAllPrevF g gpF r) →
      findRootsLoop g glF gpF fuel st = some R →
      ∀ u : Fin n, u ∈ R ∨ ∃ r ∈ R, u ∈ getAllPrevF g gpF r := by
  intro fuel
  induction fuel with
  | zero =>
      intro st R hnd hinv hloop
      cases hloop
  | succ fuel ih =>
      intro st R hnd hinv hloop
      unfold findRootsLoop at hloop
      by_cases hg : n ≤ st.2.length
      · rw [if_pos hg] at hloop
        injection hloop with hR
        subst hR
        intro u
        exact hinv u (mem_of_nodup_full hnd hg u)
      · rw [if_neg hg] at hloop
        cases hstep : findRootsStep g glF gpF st with
        | none =>
            rw [hstep] at hloop
            cases hloop
        | some st2 =>
            rw [hstep] at hloop
            unfold findRootsStep at hstep
            cases hfind : (List.finRange n).find? (fun u => !(st.2.contains u)) with
            | none =>
                rw [hfind] at hstep
                cases hstep
            | some w =>
                rw [hfind] at hstep
                injection hstep with hst2
                subst hst2
                refine ih _ R ?_ ?_ hloop
                · exact nodup_foldl_cu _ _ _ (nodup_concatUnique _ _)
                · intro x hx
                  rcases (mem_foldl_cu _ _ _ x).mp hx with hx2 | ⟨r, hr, hx2⟩
                  · rcases (mem_concatUnique _ _ x).mp hx2 with hx3 | hx3
                    · rcases hinv x hx3 with hx4 | ⟨r, hr, hx4⟩
                      · exact Or.inl ((mem_concatUnique _ _ x).mpr (Or.inl hx4))
                      · exact Or.inr ⟨r, (mem_concatUnique _ _ r).mpr (Or.inl hr), hx4⟩
                    · exact Or.inl ((mem_concatUnique _ _ x).mpr (Or.inr hx3))
                  · exact Or.inr ⟨r, (mem_concatUnique _ _ r).mpr (Or.inr hr), hx2⟩

/-- C9, amended.  When findRoots' loop does complete within some fuel, its
result R covers the whole unit set: every unit is a collected root or lies in
the transitive predecessor set of one (the loop only exits once allNodes — a
duplicate-free list of roots and their predecessors — holds all n units).
Completion does happen on acyclic graphs, as on the concrete three-unit chain
0 → 1 → 2: the single root is unit 2 and its predecessors are 1 and 0.  But
completion is not guaranteed: on the two-unit import cycle findRoots loops
forever — no fuel at all completes it — so the claim's termination half
fails. -/
theorem c9_findRoots :
    (∀ {n : Nat} (g : UGraph n) (glF gpF fuel : Nat) (R : List (Fin n)),
       findRootsF g glF gpF fuel = some R →
       ∀ u : Fin n, u ∈ R ∨ ∃ r ∈ R, u ∈ getAllPrevF g gpF r) ∧
    (findRootsF c9chain 9 9 9 = some [2] ∧
     getAllPrevF c9chain 9 2 = [1, 0]) ∧
    (∀ (glF gpF fuel : Nat), findRootsF c9cycle glF gpF fuel = none) := by
  refine ⟨?_, ⟨by decide, by decide⟩, findRootsF_cycle_none⟩
  intro n g glF gpF fuel R hloop
  exact findRootsLoop_coverage g glF gpF fuel ([], []) R List.nodup_nil
    (by intro x hx; cases hx) hloop

/-- C9 witness: the conditional coverage applied to the three-unit chain,
instantiated at unit 0. -/
theorem c9_witness :
    findRootsF c9chain 9 9 9 = some [2] ∧
    ((0 : Fin 3) ∈ ([2] : List (Fin 3)) ∨
      ∃ r ∈ ([2] : List (Fin 3)), (0 : Fin 3) ∈ getAllPrevF c9chain 9 r) :=
  ⟨by decide, c9_findRoots.1 c9chain 9 9 9 [2] (by decide) 0⟩

/-!  ## Comment text, directive extraction and the engine walk (C6) -/

/-- Trailing-whitespace trim of one row (regex replace of `[ \t]*$`). -/
def trimEnd (row : List Char) : List Char := (row.reverse.dropWhile indentChar).reverse

/-- CommentBlock constructor, commentLine rows: strip `^[ \t]*\/\/`. -/
def stripCommentLineRow (row : List Char) : List Char :=
  match row.dropWhile indentChar with
  | '/' :: '/' :: rest => rest
  | _ => row

/-- CommentBlock constructor, commentBlock rows, first replace: strip
`(^[ \t]*)?\*\/[ \t]*$` — the closing marker with trailing blanks, taking the
leading indent with it when nothing else precedes the marker. -/
def stripTrailClose (row : List Char) : List Char :=
  match row.reverse.dropWhile indentChar with
  | '/' :: '*' :: rest =>
      if (rest.reverse.dropWhile indentChar).isEmpty then [] else rest.reverse
  | _ => row

/-- CommentBlock constructor, commentBlock rows, second replace: strip
`^[ \t]*((\/\*)|(\*))?` — the indent and an optional opening marker or
continuation star. -/
def stripLeadOpen (row : List Char) : List Char :=
  match row.dropWhile indentChar with
  | '/' :: '*' :: rest => rest
  | '*' :: rest => rest
  | d => d

/-- The directive-row test `^[ \t]*@[a-zA-Z0-9_]+`. -/
def dirRowMatch (row : List Char) : Bool :=
  match row.dropWhile indentChar with
  | '@' :: c :: _ => identChar c
  | _ => false

/-- Parse one comment row into a directive: clean it, split at spaces, strip
the @ of the first token for the verb, keep the rest as arguments. -/
def rowDirective (row : List Char) : Option (String × List String) :=
  if dirRowMatch row then
    match splitCharSep ' ' (clean row) with
    | [] => none
    | verb :: args => some (String.mk (verb.drop 1), args.map (fun a => String.mk a))
  else none

/-- The text rows of a comment block after the marker stripping the
CommentBlock constructor performs on them. -/
def commentTextRows (b : RawBlock) : List (List Char) :=
  ((if b.btype == "commentLine" then (splitNL b.content).map stripCommentLineRow
    else if b.btype == "commentBlock" then
      (splitNL b.content).map (fun r => stripLeadOpen (stripTrailClose r))
    else splitNL b.content)).map trimEnd

/-- The directives of a comment block (CommentBlock constructor loop). -/
def blockDirectives (b : RawBlock) : List (String × List String) :=
  (commentTextRows b).filterMap rowDirective

/-- The engine's target search: follow level-0 next links while the block is
a comment. -/
def skipComments (ns : List BNode) : Nat → Option Nat → Option Nat
  | 0, p => p
  | _ + 1, none => none
  | fuel + 1, some j =>
      match ns[j]? with
      | none => some j
      | some node =>
          if isCommentInstance node.blk then skipComments ns fuel node.next0
          else some j

/-- DirectiveEngine.runContentDirectives on one content, walking the nodes in
level-0 order: a comment with directives runs them (with the comment's row in
the error context and the first non-comment successor as target); a thrown
error propagates; a stop directive truncates the content via sliceContent,
which nulls the current node's next pointers and thereby ends the walk.  The
parse directive's recursion into a nested content block is a separate run on
a smaller content and is not modelled here. -/
def dirWalkAux (exp : List (List String)) (env0 : DEnv) :
    Nat → List BNode → Nat → DState → Except JsError (DState × List BNode)
  | 0, ns, _, st => .ok (st, ns)
  | fuel + 1, ns, i, st =>
      match ns[i]? with
      | none => .ok (st, ns)
      | some cur =>
          if isCommentInstance cur.blk && !(blockDirectives cur.blk).isEmpty then
            match runDirList exp { env0 with row := cur.blk.startingRow }
                (skipComments ns ns.length cur.next0) (blockDirectives cur.blk) st with
            | .error e => .error e
            | .ok st2 =>
                if (blockDirectives cur.blk).any (fun d => d.1 == "stop") then
                  .ok (st2, sliceContent ns 0 (i + 1))
                else dirWalkAux exp env0 fuel ns (i + 1) st2
          else dirWalkAux exp env0 fuel ns (i + 1) st

/-- The directive walk with its canonical (sufficient) fuel. -/
def dirWalk (exp : List (List String)) (env : DEnv) (ns : List BNode) (st : DState) :
    Except JsError (DState × List BNode) :=
  dirWalkAux exp env (ns.length + 1) ns 0 st

/-- The pipeline on one input: classify and parse the content, link the
blocks, then run the directive walk. -/
def pipeline (exp : List (List String)) (env : DEnv) (c : List Char) (row : Nat)
    (st : DState) : Except JsError (DState × List BNode) :=
  dirWalk exp env (linkBlocks (loadCode c row)) st

/-- The directive walk is insensitive to extra fuel once the fuel covers the
remaining nodes: the canonical fuel really is where the JS loop has ended. -/
theorem dirWalkAux_fuel_eq (exp : List (List String)) (env : DEnv) :
    ∀ (f1 f2 : Nat) (ns : List BNode) (i : Nat) (st : DState),
      ns.length ≤ i + f1 → ns.length ≤ i + f2 →
      dirWalkAux exp env f1 ns i st = dirWalkAux exp env f2 ns i st := by
  intro f1
  induction f1 with
  | zero =>
      intro f2 ns i st h1 h2
      have hnone : ns[i]? = none := List.getElem?_eq_none_iff.mpr (by omega)
      cases f2 with
      | zero => rfl
      | succ b =>
          simp only [dirWalkAux]
          rw [hnone]
  | succ a ih =>
      intro f2 ns i st h1 h2
      cases f2 with
      | zero =>
          have hnone : ns[i]? = none := List.getElem?_eq_none_iff.mpr (by omega)
          simp only [dirWalkAux]
          rw [hnone]
      | succ b =>
          cases hcur : ns[i]? with
          | none =>
              simp only [dirWalkAux]
              rw [hcur]
          | some cur =>
              have hi : i < ns.length := by
                by_contra hx
                rw [List.getElem?_eq_none_iff.mpr (by omega)] at hcur
                cases hcur
              simp only [dirWalkAux]
              rw [hcur]
              dsimp only
              by_cases hc :
                  (isCommentInstance cur.blk && !(blockDirectives cur.blk).isEmpty) = true
              · rw [if_pos hc, if_pos hc]
                cases hrun : runDirList exp { env with row := cur.blk.startingRow }
                    (skipComments ns ns.length cur.next0) (blockDirectives cur.blk) st with
                | error e => rfl
                | ok st2 =>
                    dsimp only
                    by_cases hstop : ((blockDirectives cur.blk).any (fun d => d.1 == "stop")) = true
                    · rw [if_pos hstop, if_pos hstop]
                    · rw [if_neg hstop, if_neg hstop]
                      exact ih b ns (i + 1) st2 (by omega) (by omega)
              · rw [if_neg hc, if_neg hc]
                exact ih b ns (i + 1) st (by omega) (by omega)

def c6env : DEnv := ⟨"main.js", 0, fun _ => none⟩

def c6st : DState := ⟨[], none, []⟩

/-- A comment carrying an alias directive, followed by code. -/
def c6alias : List Char := "/* @alias foo */\nvar x = 1;\n".toList

/-- An input with unbalanced braces. -/
def c6bad : List Char := "function f() \x7b\nvar a = 1;\n".toList

/-- A stop directive followed by two further blocks. -/
def c6stop : List Char := "// @stop\nvar a = 1;\nvar b = 2;\n".toList

/-- C6, counterexample to the claim as stated: the pipeline on the well-formed
input "/* @alias foo */\nvar x = 1;\n" does not yield a best-effort result —
the alias handler throws Error("not implemented") (the comment has a target
block and _aliasNext's non-null branch is an explicit throw), and with no
try/catch anywhere the exception escapes the whole run, so the caller does
need exception-based control flow. -/
theorem c6_counterexample :
    pipeline [] c6env c6alias 1 c6st = .error (.err "not implemented") := by
  rfl

/-- C6, amended.  The classification/parsing/linking stage does terminate and
is best-effort on every input: the parser's loop is finished at fuel = input
length (more fuel changes nothing), and an input with unbalanced braces is
still parsed into blocks that reconstruct it exactly, with the directive walk
completing on it.  The directive walk itself also terminates (its canonical
fuel is insensitive to increase), and a stop directive truncates the content
and ends the walk normally.  What fails is exception freedom: directive
handlers can throw out of the entire pipeline (see the counterexample), so
the pipeline does not always yield a result. -/
theorem c6_pipeline :
    (∀ (f1 f2 : Nat) (c : List Char) (row e : Nat),
       c.length ≤ f1 → c.length ≤ f2 → c.head? ≠ some nl →
       parseLoop f1 c row e = parseLoop f2 c row e) ∧
    (∀ (exp : List (List String)) (env : DEnv) (f1 f2 : Nat) (ns : List BNode)
       (i : Nat) (st : DState),
       ns.length ≤ i + f1 → ns.length ≤ i + f2 →
       dirWalkAux exp env f1 ns i st = dirWalkAux exp env f2 ns i st) ∧
    (rebuildContent (loadCode c6bad 1) = c6bad ∧
     pipeline [] c6env c6bad 1 c6st = .ok (c6st, linkBlocks (loadCode c6bad 1))) ∧
    (pipeline [] c6env c6stop 1 c6st =
      .ok (c6st, sliceContent (linkBlocks (loadCode c6stop 1)) 0 1)) := by
  exact ⟨parseLoop_fuel_eq, fun exp env => dirWalkAux_fuel_eq exp env,
    ⟨by decide, by rfl⟩, by rfl⟩

/-- C6 witness: the walk's fuel insensitivity applied at the concrete parse
of the stop-directive input. -/
theorem c6_witness :
    (linkBlocks (loadCode c6stop 1)).length ≤ 0 + 4 ∧
    dirWalkAux [] c6env 4 (linkBlocks (loadCode c6stop 1)) 0 c6st =
      dirWalkAux [] c6env 50 (linkBlocks (loadCode c6stop 1)) 0 c6st :=
  ⟨by decide,
    c6_pipeline.2.1 [] c6env 4 50 (linkBlocks (loadCode c6stop 1)) 0 c6st
      (by decide) (by decide)⟩

end DGen
